import Mathlib

/-!
Shallow embedding of the mount-tree subsystem of the vaaandark/asterinas kernel
(`kernel/aster-nix/src/fs/utils/mount.rs`, `kernel/aster-nix/src/syscall/mount.rs`,
`kernel/aster-nix/src/syscall/umount.rs`), together with theorems settling the
frozen claims about its specification.

Modelling conventions:
- `Arc<MountNode>` identity is modelled by a `Nat` node id in an explicit heap
  (`State.nodes`); `Arc::ptr_eq` becomes id equality.
- `BTreeMap<DentryKey, Arc<MountNode>>` is modelled by a key-sorted association
  list with insert-replace semantics (`btInsert`/`btGet`/`btRemove`); iteration
  (`values()`) follows list order, which is key order for maps built by
  `btInsert`.  `BTreeMap` keys are unique, so `btRemove` removing every entry
  with the given key agrees with `BTreeMap::remove` on all reachable maps.
- External collaborators (path resolution, block devices, filesystem open/sync,
  `Dentry::new_root`) are parameters collected in `Env`.
- Fallible code returns `Except Errno`; `unwrap`-style panics and unbounded
  loops surface as `Option.none` via explicit fuel.
-/

namespace Asterinas

/-- The inode types distinguished by the mount code (`InodeType::Dir` vs rest). -/
inductive InodeType where
  | dir
  | file
  | symlink
  deriving DecidableEq, Repr

/-- A dentry, as observed by the mount subsystem: its `DentryKey` identity
(`Dentry::key`), its inode type (`Dentry::type_`) and its
root-of-mount marker (`Dentry::is_root_of_mount`). -/
structure Dentry where
  key : Nat
  typ : InodeType
  rootOfMount : Bool
  deriving DecidableEq, Repr

/-- Error kinds used by the mount subsystem (`Errno`). `other` stands for any
collaborator-owned errno that is merely propagated. -/
inductive Errno where
  | EINVAL
  | ENOTDIR
  | ENOENT
  | other (n : Nat)
  deriving DecidableEq, Repr

/-- `MountNode` (mount.rs lines 7-21): root dentry, optional mountpoint dentry,
filesystem handle (an id, since only handle identity is observable here),
optional parent node id, and the children map keyed by `DentryKey`. The
`this` self-reference is implicit: it is the node's own heap id. -/
structure MountNode where
  root_dentry : Dentry
  mountpoint_dentry : Option Dentry
  fs : Nat
  parent : Option Nat
  children : List (Nat × Nat)
  deriving DecidableEq, Repr

/-- Sorted-association-list model of `BTreeMap::insert` (replace on equal key). -/
def btInsert (k : Nat) (v : α) : List (Nat × α) → List (Nat × α)
  | [] => [(k, v)]
  | (k', v') :: rest =>
    if k < k' then (k, v) :: (k', v') :: rest
    else if k = k' then (k, v) :: rest
    else (k', v') :: btInsert k v rest

/-- `BTreeMap::get`: first entry with the given key. -/
def btGet (k : Nat) : List (Nat × α) → Option α
  | [] => none
  | (k', v') :: rest => if k = k' then some v' else btGet k rest

/-- `BTreeMap::remove`: drop the entry with the given key (keys are unique in
every reachable map, so dropping all occurrences agrees with `BTreeMap`). -/
def btRemove (k : Nat) : List (Nat × α) → List (Nat × α)
  | [] => []
  | (k', v') :: rest => if k' = k then btRemove k rest else (k', v') :: btRemove k rest

/-- `BTreeMap::values` (iteration in key order for sorted maps). -/
def btValues (m : List (Nat × α)) : List α :=
  m.map Prod.snd

/-- The heap of mount nodes: `nodes` maps node ids to nodes, `nextId` is the
next fresh id (allocation = a fresh `Arc`). -/
structure State where
  nodes : List (Nat × MountNode)
  nextId : Nat
  deriving DecidableEq, Repr

/-- Dereference an `Arc<MountNode>` id. -/
def getNode (st : State) (id : Nat) : Option MountNode :=
  btGet id st.nodes

/-- Overwrite the node stored at an existing id (field mutation through a lock). -/
def setNode (st : State) (id : Nat) (n : MountNode) : State :=
  { st with nodes := btInsert id n st.nodes }

/-- Allocate a fresh node (`Arc::new_cyclic`): returns the new state and id. -/
def alloc (st : State) (n : MountNode) : State × Nat :=
  ({ nodes := btInsert st.nextId n st.nodes, nextId := st.nextId + 1 }, st.nextId)

/-- A resolved `Path`: `(mount node, dentry)`; the mount subsystem only reads
`mntnode()` and `dentry()` off it. -/
structure Path where
  mntnode : Nat
  dentry : Dentry
  deriving DecidableEq, Repr

/-- External collaborators, §6 of the spec: filesystem root inode / dentry
creation, filesystem sync outcome, path resolution, block devices, ext2 open. -/
structure Env where
  fsRootDentry : Nat → Dentry
  fsSync : Nat → Bool
  lookup : String → Except Errno Path
  lookupNoFollow : String → Except Errno Path
  startBlockDevice : String → Option Nat
  ext2Open : Nat → Option Nat

namespace MountNode

/-- `MountNode::new` (mount.rs 38-51): allocate a node whose root dentry is a
fresh dentry over the filesystem's root inode, with the given mountpoint and
parent, and an empty children map. -/
def new (env : Env) (st : State) (fs : Nat) (mountpoint : Option Dentry)
    (parent_mount : Option Nat) : State × Nat :=
  alloc st
    { root_dentry := env.fsRootDentry fs
      mountpoint_dentry := mountpoint
      fs := fs
      parent := parent_mount
      children := [] }

/-- `MountNode::new_root` (mount.rs 31-33). -/
def new_root (env : Env) (st : State) (fs : Nat) : State × Nat :=
  new env st fs none none

/-- `MountNode::clone_mnt` (mount.rs 54-67): allocate a node with the given
root dentry, the old node's `mountpoint_dentry` and `fs`, the given parent,
and an empty children map. -/
def clone_mnt (st : State) (root_dentry : Dentry) (mount_node : MountNode)
    (parent_mount : Option Nat) : State × Nat :=
  alloc st
    { root_dentry := root_dentry
      mountpoint_dentry := mount_node.mountpoint_dentry
      fs := mount_node.fs
      parent := parent_mount
      children := [] }

end MountNode

/-- Insert a child into a node's children map (`parent.children.lock().insert`). -/
def insertChild (st : State) (parentId : Nat) (key : Nat) (childId : Nat) : State :=
  match getNode st parentId with
  | none => st
  | some p => setNode st parentId { p with children := btInsert key childId p.children }

/-- Remove a child from a node's children map (`self.children.lock().remove`). -/
def removeChild (st : State) (parentId : Nat) (key : Nat) : State :=
  match getNode st parentId with
  | none => st
  | some p => setNode st parentId { p with children := btRemove key p.children }

/-- `MountNode::set_mountpoint_dentry` (mount.rs 208-211). -/
def setMountpointDentry (st : State) (id : Nat) (d : Dentry) : State :=
  match getNode st id with
  | none => st
  | some n => setNode st id { n with mountpoint_dentry := some d }

/-- `MountNode::set_parent` (mount.rs 233-236). -/
def setParent (st : State) (id : Nat) (p : Nat) : State :=
  match getNode st id with
  | none => st
  | some n => setNode st id { n with parent := some p }

namespace MountNode

/-- `MountNode::attach_mnt` (mount.rs 98-107): insert the new node into the
destination's children map under the destination dentry's key, then set the
new node's own mountpoint dentry and parent. No validation is performed and
no error can be returned. (`mountpoint_dentry.set_mountpoint()` marks the
external dentry and is not observable in this model.) -/
def attach_mnt (st : State) (new_mount_node : Nat) (new_path : Path) : State :=
  let st1 := insertChild st new_path.mntnode new_path.dentry.key new_mount_node
  let st2 := setMountpointDentry st1 new_mount_node new_path.dentry
  setParent st2 new_mount_node new_path.mntnode

/-- `MountNode::mount` (mount.rs 156-172): `EINVAL` if the mountpoint's node is
not `self`, `ENOTDIR` if its dentry is not a directory; otherwise build the
child with `Self::new` and insert it into `self`'s children map (replacing any
prior occupant). Errors are returned before any mutation. -/
def mount (env : Env) (st : State) (selfId : Nat) (fs : Nat) (mountpoint : Path) :
    State × Except Errno Nat :=
  if mountpoint.mntnode ≠ selfId then (st, .error .EINVAL)
  else if mountpoint.dentry.typ ≠ InodeType.dir then (st, .error .ENOTDIR)
  else
    let key := mountpoint.dentry.key
    let res := new env st fs (some mountpoint.dentry) (some mountpoint.mntnode)
    (insertChild res.1 selfId key res.2, .ok res.2)

/-- `MountNode::umount` (mount.rs 177-188): `EINVAL` if the mountpoint's node
is not `self`; remove the child at the mountpoint dentry's key, `ENOENT` when
absent (`BTreeMap::remove` of an absent key leaves the map unchanged). -/
def umount (st : State) (selfId : Nat) (mountpoint : Path) :
    State × Except Errno Nat :=
  if mountpoint.mntnode ≠ selfId then (st, .error .EINVAL)
  else
    match (getNode st selfId).bind (fun n => btGet mountpoint.dentry.key n.children) with
    | none => (st, .error .ENOENT)
    | some child => (removeChild st selfId mountpoint.dentry.key, .ok child)

/-- `MountNode::get` (mount.rs 191-193): look up the child mounted at the
dentry's key. -/
def get (st : State) (selfId : Nat) (mountpoint : Dentry) : Option Nat :=
  (getNode st selfId).bind fun n => btGet mountpoint.key n.children

end MountNode

/-- The body of the `for child in children.values()` loop inside
`MountNode::copy_tree` (mount.rs 79-93), folded over the children values of the
mount node just popped: push the original child, clone it with the popped clone
as parent, read the key off the clone's (copied) mountpoint dentry
(`.unwrap()` = `none` on a missing mountpoint), insert the clone into the
popped clone's children map, push the clone. -/
def copyTreeChildren (st : State) (parentId : Nat) (stack newStack : List Nat) :
    List Nat → Option (State × List Nat × List Nat)
  | [] => some (st, stack, newStack)
  | c :: rest =>
    match getNode st c with
    | none => none
    | some childNode =>
      let res := MountNode.clone_mnt st childNode.root_dentry childNode (some parentId)
      match getNode res.1 res.2 with
      | none => none
      | some newChildNode =>
        match newChildNode.mountpoint_dentry with
        | none => none
        | some mpd =>
          copyTreeChildren (insertChild res.1 parentId mpd.key res.2) parentId
            (c :: stack) (res.2 :: newStack) rest

/-- The `while let Some(current_mount_node) = stack.pop()` loop of
`MountNode::copy_tree` (mount.rs 76-94). The two `Vec` stacks are lists with
the top at the head; `new_stack.pop().unwrap()` on an empty stack and a cycle
exhausting the fuel both surface as `none`. -/
def copyTreeLoop : Nat → State → List Nat → List Nat → Option State
  | 0, _, _, _ => none
  | fuel + 1, st, stack, newStack =>
    match stack with
    | [] => some st
    | cur :: stackRest =>
      match newStack with
      | [] => none
      | parent :: newStackRest =>
        match getNode st cur with
        | none => none
        | some curNode =>
          match copyTreeChildren st parent stackRest newStackRest
              (btValues curNode.children) with
          | none => none
          | some res => copyTreeLoop fuel res.1 res.2.1 res.2.2

namespace MountNode

/-- `MountNode::copy_tree` (mount.rs 70-96): clone the root detached
(`parent = None`), then run the explicit-stack depth-first walk. -/
def copy_tree (st : State) (old_mount_node : Nat)
    (old_root_dentry : Dentry) (fuel : Nat) : Option (State × Nat) :=
  match getNode st old_mount_node with
  | none => none
  | some oldNode =>
    let res := clone_mnt st old_root_dentry oldNode none
    match copyTreeLoop fuel res.1 [old_mount_node] [res.2] with
    | none => none
    | some st2 => some (st2, res.2)

end MountNode

mutual

/-- `MountNode::sync` (mount.rs 214-223): sync every child (in children-map
order), then the node's own filesystem. Returns the ordered list of node ids
whose own `fs.sync()` was invoked and whether every invocation succeeded;
an invocation on node `i` happens iff `i` is in the list, and the first
failing invocation ends the list. Fuel bounds the recursion depth. -/
def MountNode.sync (env : Env) (st : State) (fuel : Nat) (selfId : Nat) :
    Option (List Nat × Bool) :=
  match fuel with
  | 0 => none
  | f + 1 =>
    match getNode st selfId with
    | none => none
    | some n =>
      match syncChildrenList env st f (btValues n.children) with
      | none => none
      | some (tr, false) => some (tr, false)
      | some (tr, true) => some (tr ++ [selfId], env.fsSync n.fs)
termination_by (fuel, 0)

/-- The `for child in children.values() { child.sync()?; }` loop of
`MountNode::sync`: stop at the first failing child. -/
def syncChildrenList (env : Env) (st : State) (fuel : Nat) (l : List Nat) :
    Option (List Nat × Bool) :=
  match l with
  | [] => some ([], true)
  | c :: rest =>
    match MountNode.sync env st fuel c with
    | none => none
    | some (tr, false) => some (tr, false)
    | some (tr, true) =>
      match syncChildrenList env st fuel rest with
      | none => none
      | some p => some (tr ++ p.1, p.2)
termination_by (fuel, l.length + 1)

end

namespace UmountFlags

/-- umount.rs 41-48: the four defined `UmountFlags` bits. -/
def MNT_FORCE : Nat := 1
def MNT_DETACH : Nat := 2
def MNT_EXPIRE : Nat := 4
def UMOUNT_NOFOLLOW : Nat := 8

/-- `bitflags` mask of all defined `UmountFlags` bits. -/
def definedBits : Nat := 15

/-- `UmountFlags::from_bits_truncate`: keep only defined bits. -/
def fromBitsTruncate (flags : Nat) : Nat := flags &&& definedBits

/-- `bitflags` `contains`: all bits of the argument are set. -/
def hasFlag (f bit : Nat) : Bool := f &&& bit == bit

/-- `UmountFlags::check_unsupported_flags` (umount.rs 51-61): `EINVAL` when a
bit outside the supported set remains (`*self - supported_flags` is bitwise
difference on `u32`). -/
def checkUnsupportedFlags (f : Nat) : Except Errno Unit :=
  let supported := MNT_FORCE ||| MNT_DETACH ||| MNT_EXPIRE ||| UMOUNT_NOFOLLOW
  let unsupported := f &&& (0xFFFFFFFF ^^^ supported)
  if unsupported ≠ 0 then .error .EINVAL else .ok ()

end UmountFlags

/-- Modelled from the spec: `Path::umount` is called by `sys_umount`
(umount.rs 36) but its definition is not under src/. Spec §4.5: `sys_umount`
"resolves the target ... and calls `unmount`"; `unmount` is
`MountNode::umount` (src), which demands that the mountpoint's node be the
node operated on, so the call is on the path's own mount node. -/
def Path.umount (st : State) (p : Path) : State × Except Errno Nat :=
  MountNode.umount st p.mntnode p

/-- Modelled from the spec: `Path::mount` is called by `do_new_mount`
(mount.rs syscall, line 121) but its definition is not under src/. Spec §4.1:
`mount(self, filesystem, mountpoint)` grafts the filesystem at the mountpoint
path; the path delegates to `MountNode::mount` (src) on its own mount node. -/
def Path.mount (env : Env) (st : State) (p : Path) (fs : Nat) :
    State × Except Errno Nat :=
  MountNode.mount env st p.mntnode fs p

/-- `sys_umount` (umount.rs 15-39). String marshalling (`read_cstring_from_user`,
`FsPath::new`) and resolution are collaborator-owned and folded into
`Env.lookup`/`Env.lookupNoFollow`. Note: the source invokes
`umount_flags.check_unsupported_flags();` WITHOUT `?` (line 22), discarding
the `Result`; the unused binding below mirrors that. -/
def sys_umount (env : Env) (st : State) (pathname : String) (flags : Nat) :
    State × Except Errno Nat :=
  let umount_flags := UmountFlags.fromBitsTruncate flags
  let _check := UmountFlags.checkUnsupportedFlags umount_flags
  let resolved :=
    if UmountFlags.hasFlag umount_flags UmountFlags.UMOUNT_NOFOLLOW then
      env.lookupNoFollow pathname
    else env.lookup pathname
  match resolved with
  | .error e => (st, .error e)
  | .ok umount_path =>
    match Path.umount st umount_path with
    | (st', .error e) => (st', .error e)
    | (st', .ok _) => (st', .ok 0)

namespace MountFlags

/-- mount.rs (syscall) 125-152: the `MountFlags` bits used by the dispatch. -/
def MS_REMOUNT : Nat := 32
def MS_BIND : Nat := 4096
def MS_MOVE : Nat := 8192
def MS_UNBINDABLE : Nat := 131072
def MS_PRIVATE : Nat := 262144
def MS_SLAVE : Nat := 524288
def MS_SHARED : Nat := 1048576

/-- `bitflags` mask of all defined `MountFlags` bits: bits 0-8 and 10-22
(bit 9 is not defined by the declaration). -/
def definedBits : Nat := 0x7FFDFF

/-- `MountFlags::from_bits_truncate`: keep only defined bits. -/
def fromBitsTruncate (flags : Nat) : Nat := flags &&& definedBits

/-- `bitflags` `contains`: all bits of the argument are set. -/
def hasFlag (f bit : Nat) : Bool := f &&& bit == bit

end MountFlags

/-- `do_reconfigure_mnt` (mount.rs syscall 63-65): a `// TODO` stub, no effect. -/
def do_reconfigure_mnt (st : State) : State := st

/-- `do_remount` (mount.rs syscall 67-69): a `// TODO` stub, no effect. -/
def do_remount (st : State) : State := st

/-- `do_change_type` (mount.rs syscall 90-92): a `// TODO` stub, no effect. -/
def do_change_type (st : State) : State := st

/-- `do_loopback` (mount.rs syscall 71-88): `ENOENT` on an empty source name,
resolve the source, `copy_tree` the subtree at the source's mount node from
the source's dentry, `attach_mnt` the clone at the destination path. -/
def do_loopback (env : Env) (st : State) (old_name : String) (new_path : Path)
    (fuel : Nat) : Option (State × Except Errno Unit) :=
  if old_name = "" then some (st, .error .ENOENT)
  else
    match env.lookup old_name with
    | .error e => some (st, .error e)
    | .ok old_path =>
      match MountNode.copy_tree st old_path.mntnode old_path.dentry fuel with
      | none => none
      | some res => some (MountNode.attach_mnt res.1 res.2 new_path, .ok ())

/-- Modelled from the spec: `MountNode::unattch_mnt` is called by
`do_move_mount_old` (mount.rs syscall 110) but is not defined under src/.
Spec §4.2 `detach`: remove the node from its current parent's `children` map
using its current `mountpoint_entry`/`parent`. -/
def MountNode.unattch_mnt (st : State) (id : Nat) : State :=
  match getNode st id with
  | none => st
  | some n =>
    match n.mountpoint_dentry, n.parent with
    | some d, some p => removeChild st p d.key
    | _, _ => st

/-- `do_move_mount_old` (mount.rs syscall 94-114): `ENOENT` on an empty source
name, resolve the source, `EINVAL` unless the source dentry is a root of
mount or the source mount node has a parent, then detach and re-attach the
same node at the destination. -/
def do_move_mount_old (env : Env) (st : State) (old_name : String)
    (new_path : Path) : Option (State × Except Errno Unit) :=
  if old_name = "" then some (st, .error .ENOENT)
  else
    match env.lookup old_name with
    | .error e => some (st, .error e)
    | .ok old_path =>
      match getNode st old_path.mntnode with
      | none => none
      | some oldNode =>
        if ¬ old_path.dentry.rootOfMount ∧ oldNode.parent = none then
          some (st, .error .EINVAL)
        else
          let st1 := MountNode.unattch_mnt st old_path.mntnode
          some (MountNode.attach_mnt st1 old_path.mntnode new_path, .ok ())

/-- `do_new_mount` (mount.rs syscall 116-123): ignore the user device name,
start the hard-coded block device `"vext2"`, open it as ext2 (both
`.unwrap()`ed: failure is a panic, `none`), and mount that filesystem at the
target path. -/
def do_new_mount (env : Env) (st : State) (devname : String) (target_path : Path) :
    Option (State × Except Errno Unit) :=
  let _ := devname
  let ext2_device_name := "vext2"
  match env.startBlockDevice ext2_device_name with
  | none => none
  | some block_device_ext2 =>
    match env.ext2Open block_device_ext2 with
    | none => none
    | some ext2_fs =>
      match Path.mount env st target_path ext2_fs with
      | (st', .error e) => some (st', .error e)
      | (st', .ok _) => some (st', .ok ())

/-- `sys_mount` (mount.rs syscall 17-61). The `fs_type_name_addr` argument is
never read by the source; `fstype` is likewise unused here. The dispatch
branches call `do_reconfigure_mnt` / `do_remount` / `do_loopback` /
`do_change_type` / `do_move_mount_old` / `do_new_mount` as statements WITHOUT
`?`, discarding their `Result`s, and the syscall then returns
`Ok(SyscallReturn::Return(0))` unconditionally (line 60). -/
def sys_mount (env : Env) (st : State) (devname dirname fstype : String)
    (flags : Nat) (fuel : Nat) : Option (State × Except Errno Nat) :=
  let _ := fstype
  let mount_flags := MountFlags.fromBitsTruncate flags
  if dirname = "" then some (st, .error .ENOENT)
  else
    match env.lookup dirname with
    | .error e => some (st, .error e)
    | .ok target_path =>
      let branch : Option State :=
        if MountFlags.hasFlag mount_flags MountFlags.MS_REMOUNT &&
            MountFlags.hasFlag mount_flags MountFlags.MS_BIND then
          some (do_reconfigure_mnt st)
        else if MountFlags.hasFlag mount_flags MountFlags.MS_REMOUNT then
          some (do_remount st)
        else if MountFlags.hasFlag mount_flags MountFlags.MS_BIND then
          (do_loopback env st devname target_path fuel).map (·.1)
        else if MountFlags.hasFlag mount_flags MountFlags.MS_SHARED ||
            MountFlags.hasFlag mount_flags MountFlags.MS_PRIVATE ||
            MountFlags.hasFlag mount_flags MountFlags.MS_SLAVE ||
            MountFlags.hasFlag mount_flags MountFlags.MS_UNBINDABLE then
          some (do_change_type st)
        else if MountFlags.hasFlag mount_flags MountFlags.MS_MOVE then
          (do_move_mount_old env st devname target_path).map (·.1)
        else
          (do_new_mount env st devname target_path).map (·.1)
      branch.map (fun st' => (st', .ok 0))

/-- Heap well-formedness: every allocated id is below `nextId`. -/
def stateWF (st : State) : Bool :=
  st.nodes.all (fun kv => kv.1 < st.nextId)

/-! ### Extracted tree views

`MTree` is a finite, explicit view of a mount subtree as laid out in the heap:
node id, root dentry, mountpoint dentry, filesystem handle, and the children
association list in children-map order. `extractsTo st t` checks that the
heap `st` really contains the subtree `t`. -/

inductive MTree where
  | node (id : Nat) (rd : Dentry) (mp : Option Dentry) (fs : Nat)
      (children : List (Nat × MTree))

def MTree.id : MTree → Nat
  | .node i _ _ _ _ => i

def MTree.rd : MTree → Dentry
  | .node _ r _ _ _ => r

def MTree.mp : MTree → Option Dentry
  | .node _ _ m _ _ => m

def MTree.fs : MTree → Nat
  | .node _ _ _ f _ => f

def MTree.children : MTree → List (Nat × MTree)
  | .node _ _ _ _ cs => cs

mutual

def MTree.size : MTree → Nat
  | .node _ _ _ _ cs => 1 + sizeChildren cs

def sizeChildren : List (Nat × MTree) → Nat
  | [] => 0
  | kc :: rest => MTree.size kc.2 + sizeChildren rest

end

mutual

/-- Post-order listing of the node ids of a subtree: children first (in
children-map order), then the node itself. -/
def postorder : MTree → List Nat
  | .node i _ _ _ cs => postorderChildren cs ++ [i]

def postorderChildren : List (Nat × MTree) → List Nat
  | [] => []
  | kc :: rest => postorder kc.2 ++ postorderChildren rest

end

/-- The children association list with subtrees replaced by their root ids:
what the heap node's `children` map must equal. -/
def childIdPairs : List (Nat × MTree) → List (Nat × Nat)
  | [] => []
  | kc :: rest => (kc.1, kc.2.id) :: childIdPairs rest

mutual

/-- `extractsTo st t`: the heap `st` contains exactly the subtree `t`. -/
def extractsTo (st : State) : MTree → Bool
  | .node i rd mp f cs =>
    match getNode st i with
    | none => false
    | some n =>
      decide (n.root_dentry = rd) && decide (n.mountpoint_dentry = mp) &&
      decide (n.fs = f) && decide (n.children = childIdPairs cs) &&
      extractsToChildren st cs

def extractsToChildren (st : State) : List (Nat × MTree) → Bool
  | [] => true
  | kc :: rest => extractsTo st kc.2 && extractsToChildren st rest

end

/-- Strictly ascending list of naturals (sorted `BTreeMap` key order). -/
def strictAsc : List Nat → Bool
  | [] => true
  | [_] => true
  | a :: b :: rest => a < b && strictAsc (b :: rest)

mutual

/-- Structural well-formedness of a subtree view, as guaranteed for trees
built by `mount`/`attach_mnt`: children keys are strictly sorted (`BTreeMap`
order) and every child's (copied) mountpoint dentry has exactly its key in
the parent's children map. -/
def treeWF : MTree → Bool
  | .node _ _ _ _ cs => strictAsc (List.map Prod.fst (childIdPairs cs)) && treeWFChildren cs

def treeWFChildren : List (Nat × MTree) → Bool
  | [] => true
  | kc :: rest =>
    (match kc.2.mp with
     | some d => decide (d.key = kc.1)
     | none => false) && treeWF kc.2 && treeWFChildren rest

end

/-- Shape-and-content skeleton of a subtree: keys and filesystem handles at
every level, node identities erased. -/
inductive STree where
  | node (fs : Nat) (children : List (Nat × STree))

mutual

def MTree.strip : MTree → STree
  | .node _ _ _ f cs => .node f (stripChildren cs)

def stripChildren : List (Nat × MTree) → List (Nat × STree)
  | [] => []
  | kc :: rest => (kc.1, MTree.strip kc.2) :: stripChildren rest

end

mutual

def STree.sizeS : STree → Nat
  | .node _ cs => 1 + sizeSChildren cs

def sizeSChildren : List (Nat × STree) → Nat
  | [] => 0
  | kc :: rest => STree.sizeS kc.2 + sizeSChildren rest

end

/-- Total size of a pending list of subtrees. -/
def sizeSum : List MTree → Nat
  | [] => 0
  | t :: ts => MTree.size t + sizeSum ts

/-- `idRange s n = [s, s+1, …, s+n-1]`: the consecutive fresh ids handed out
by `n` successive allocations starting at `s`. -/
def idRange : Nat → Nat → List Nat
  | _, 0 => []
  | s, n + 1 => s :: idRange (s + 1) n

/-- The children map a clone parent ends up with after `copy_tree` has cloned
children `cs`, the clones receiving consecutive fresh ids from `n`. -/
def seedPairs : List (Nat × MTree) → Nat → List (Nat × Nat)
  | [], _ => []
  | kc :: rest, n => (kc.1, n) :: seedPairs rest (n + 1)

/-- `SeedAt st t c`: heap node `c` is a freshly created clone of the root of
`t` — same mountpoint dentry and filesystem handle, children not yet filled. -/
def SeedAt (st : State) (t : MTree) (c : Nat) : Prop :=
  ∃ rd pr, getNode st c
    = some { root_dentry := rd, mountpoint_dentry := t.mp,
             fs := t.fs, parent := pr, children := [] }

/-- `DoneAt st lo t c`: heap `st` contains, rooted at `c`, a finished clone of
`t`: same skeleton (keys and filesystem handles at every level), and every
node id of the clone is at least `lo` (the clone region). -/
def DoneAt (st : State) (lo : Nat) (t : MTree) (c : Nat) : Prop :=
  ∃ t', extractsTo st t' = true ∧ t'.id = c ∧ MTree.strip t' = MTree.strip t ∧
    ∀ i ∈ postorder t', lo ≤ i

/-- Whether node `i`'s own filesystem sync would succeed in heap `st`. -/
def nodeSyncOk (env : Env) (st : State) (i : Nat) : Bool :=
  match getNode st i with
  | some n => env.fsSync n.fs
  | none => false

/-- Reference run of a sequence of per-node sync invocations: invoke in
order, stopping at (and including) the first failure; the flag records
whether every invocation succeeded. -/
def syncRun (ok : Nat → Bool) : List Nat → List Nat × Bool
  | [] => ([], true)
  | i :: rest =>
    if ok i then
      let r := syncRun ok rest
      (i :: r.1, r.2)
    else ([i], false)

/-! ### Concrete fixtures used by witnesses and counterexamples -/

/-- A directory dentry with key 5, the mountpoint of the fixture child. -/
def dA5 : Dentry := { key := 5, typ := .dir, rootOfMount := false }

/-- A non-directory dentry with key 7. -/
def dA7 : Dentry := { key := 7, typ := .file, rootOfMount := false }

/-- Fixture root mount node (id 0): fs 1, one child (id 1) mounted at `dA5`. -/
def nA0 : MountNode :=
  { root_dentry := { key := 0, typ := .dir, rootOfMount := true }
    mountpoint_dentry := none
    fs := 1
    parent := none
    children := [(5, 1)] }

/-- Fixture child mount node (id 1): fs 2, mounted at `dA5` of node 0. -/
def nA1 : MountNode :=
  { root_dentry := { key := 10, typ := .dir, rootOfMount := true }
    mountpoint_dentry := some dA5
    fs := 2
    parent := some 0
    children := [] }

/-- Fixture heap: node 0 (root) with child node 1. -/
def stA : State := { nodes := [(0, nA0), (1, nA1)], nextId := 2 }

/-- The extracted tree view of the fixture heap `stA` rooted at node 0. -/
def tA : MTree :=
  MTree.node 0 nA0.root_dentry none 1
    [(5, MTree.node 1 nA1.root_dentry (some dA5) 2 [])]

/-- Fixture environment: resolution always yields the path `(node 0, dA5)`;
every filesystem sync succeeds; block device and ext2 open succeed. -/
def envA : Env :=
  { fsRootDentry := fun f => { key := 100 + f, typ := .dir, rootOfMount := true }
    fsSync := fun _ => true
    lookup := fun _ => .ok { mntnode := 0, dentry := dA5 }
    lookupNoFollow := fun _ => .ok { mntnode := 0, dentry := dA5 }
    startBlockDevice := fun _ => some 0
    ext2Open := fun _ => some 3 }

theorem btGet_btInsert_self (k : Nat) (v : α) (m : List (Nat × α)) :
    btGet k (btInsert k v m) = some v := by
  induction m with
  | nil => simp [btInsert, btGet]
  | cons kv rest ih =>
    obtain ⟨k', v'⟩ := kv
    by_cases h1 : k < k'
    · simp [btInsert, btGet, h1]
    · by_cases h2 : k = k'
      · simp [btInsert, btGet, h1, h2]
      · simp [btInsert, btGet, h1, h2, ih]

theorem btGet_btInsert_ne (k k' : Nat) (v : α) (m : List (Nat × α))
    (h : k' ≠ k) : btGet k' (btInsert k v m) = btGet k' m := by
  induction m with
  | nil => simp [btInsert, btGet, h]
  | cons kv rest ih =>
    obtain ⟨ka, va⟩ := kv
    by_cases h1 : k < ka
    · simp [btInsert, btGet, h1, h]
    · by_cases h2 : k = ka
      · subst h2
        simp [btInsert, btGet, h1, h]
      · by_cases h3 : k' = ka
        · simp [btInsert, btGet, h1, h2, h3]
        · simp [btInsert, btGet, h1, h2, h3, ih]

theorem btGet_btRemove_self (k : Nat) (m : List (Nat × α)) :
    btGet k (btRemove k m) = none := by
  induction m with
  | nil => simp [btRemove, btGet]
  | cons kv rest ih =>
    obtain ⟨ka, va⟩ := kv
    by_cases h1 : ka = k
    · simp [btRemove, h1, ih]
    · have h2 : ¬k = ka := fun h => h1 h.symm
      simp [btRemove, btGet, h1, h2, ih]

theorem btGet_btRemove_ne (k k' : Nat) (m : List (Nat × α))
    (h : k' ≠ k) : btGet k' (btRemove k m) = btGet k' m := by
  induction m with
  | nil => simp [btRemove, btGet]
  | cons kv rest ih =>
    obtain ⟨ka, va⟩ := kv
    by_cases h1 : ka = k
    · subst h1
      simp [btRemove, btGet, h, ih]
    · by_cases h2 : k' = ka
      · simp [btRemove, btGet, h1, h2]
      · simp [btRemove, btGet, h1, h2, ih]

theorem btGet_mem (k : Nat) (v : α) (m : List (Nat × α))
    (h : btGet k m = some v) : (k, v) ∈ m := by
  induction m with
  | nil => simp [btGet] at h
  | cons kv rest ih =>
    obtain ⟨ka, va⟩ := kv
    by_cases h1 : k = ka
    · subst h1
      simp [btGet] at h
      simp [h]
    · simp [btGet, h1] at h
      exact List.mem_cons_of_mem _ (ih h)

theorem mem_btInsert (k : Nat) (v : α) (m : List (Nat × α)) (x : Nat × α)
    (h : x ∈ btInsert k v m) : x = (k, v) ∨ x ∈ m := by
  induction m with
  | nil => simpa [btInsert] using h
  | cons kv rest ih =>
    obtain ⟨ka, va⟩ := kv
    by_cases h1 : k < ka
    · simp only [btInsert, if_pos h1] at h
      rcases List.mem_cons.mp h with h' | h'
      · exact Or.inl h'
      · exact Or.inr h'
    · by_cases h2 : k = ka
      · simp only [btInsert, if_neg h1, if_pos h2] at h
        rcases List.mem_cons.mp h with h' | h'
        · exact Or.inl h'
        · exact Or.inr (List.mem_cons_of_mem _ h')
      · simp only [btInsert, if_neg h1, if_neg h2] at h
        rcases List.mem_cons.mp h with h' | h'
        · exact Or.inr (h' ▸ List.mem_cons_self _ _)
        · rcases ih h' with h'' | h''
          · exact Or.inl h''
          · exact Or.inr (List.mem_cons_of_mem _ h'')

theorem getNode_setNode_self (st : State) (id : Nat) (n : MountNode) :
    getNode (setNode st id n) id = some n :=
  btGet_btInsert_self ..

theorem getNode_setNode_ne (st : State) (id id' : Nat) (n : MountNode)
    (h : id' ≠ id) : getNode (setNode st id n) id' = getNode st id' :=
  btGet_btInsert_ne _ _ _ _ h

theorem setNode_nextId (st : State) (id : Nat) (n : MountNode) :
    (setNode st id n).nextId = st.nextId := rfl

theorem getNode_alloc_self (st : State) (n : MountNode) :
    getNode (alloc st n).1 (alloc st n).2 = some n :=
  btGet_btInsert_self ..

theorem getNode_alloc_ne (st : State) (n : MountNode) (id : Nat)
    (h : id ≠ st.nextId) : getNode (alloc st n).1 id = getNode st id :=
  btGet_btInsert_ne _ _ _ _ h

theorem alloc_nextId (st : State) (n : MountNode) :
    (alloc st n).1.nextId = st.nextId + 1 := rfl

theorem alloc_id (st : State) (n : MountNode) : (alloc st n).2 = st.nextId := rfl

theorem stateWF_bound (st : State) (id : Nat) (n : MountNode)
    (hwf : stateWF st = true) (h : getNode st id = some n) : id < st.nextId := by
  have hm := btGet_mem _ _ _ h
  have := List.all_eq_true.mp hwf _ hm
  simpa using this

theorem stateWF_setNode (st : State) (id : Nat) (n : MountNode)
    (hwf : stateWF st = true) (hid : id < st.nextId) :
    stateWF (setNode st id n) = true := by
  refine List.all_eq_true.mpr ?_
  intro x hx
  rcases mem_btInsert _ _ _ _ hx with h | h
  · subst h
    simpa [setNode] using hid
  · have := List.all_eq_true.mp hwf _ h
    simpa [setNode] using this

theorem stateWF_alloc (st : State) (n : MountNode)
    (hwf : stateWF st = true) : stateWF (alloc st n).1 = true := by
  refine List.all_eq_true.mpr ?_
  intro x hx
  rcases mem_btInsert _ _ _ _ hx with h | h
  · subst h
    simp [alloc]
  · have := List.all_eq_true.mp hwf _ h
    simp only [alloc] at *
    simp only [decide_eq_true_eq] at this ⊢
    omega

theorem insertChild_get_self (st : State) (pid key c : Nat) (pn : MountNode)
    (h : getNode st pid = some pn) :
    getNode (insertChild st pid key c) pid
      = some { pn with children := btInsert key c pn.children } := by
  simp only [insertChild, h]
  exact getNode_setNode_self ..

theorem insertChild_getNode_ne (st : State) (pid key c id : Nat) (h : id ≠ pid) :
    getNode (insertChild st pid key c) id = getNode st id := by
  unfold insertChild
  cases hg : getNode st pid with
  | none => rfl
  | some pn => exact getNode_setNode_ne _ _ _ _ h

theorem removeChild_get_self (st : State) (pid key : Nat) (pn : MountNode)
    (h : getNode st pid = some pn) :
    getNode (removeChild st pid key) pid
      = some { pn with children := btRemove key pn.children } := by
  simp only [removeChild, h]
  exact getNode_setNode_self ..

theorem removeChild_getNode_ne (st : State) (pid key id : Nat) (h : id ≠ pid) :
    getNode (removeChild st pid key) id = getNode st id := by
  unfold removeChild
  cases hg : getNode st pid with
  | none => rfl
  | some pn => exact getNode_setNode_ne _ _ _ _ h

theorem setMountpointDentry_getNode_self (st : State) (id : Nat) (d : Dentry)
    (n : MountNode) (h : getNode st id = some n) :
    getNode (setMountpointDentry st id d) id
      = some { n with mountpoint_dentry := some d } := by
  simp only [setMountpointDentry, h]
  exact getNode_setNode_self ..

theorem setMountpointDentry_getNode_ne (st : State) (id : Nat) (d : Dentry)
    (id' : Nat) (h : id' ≠ id) :
    getNode (setMountpointDentry st id d) id' = getNode st id' := by
  unfold setMountpointDentry
  cases hg : getNode st id with
  | none => rfl
  | some n => exact getNode_setNode_ne _ _ _ _ h

theorem setParent_getNode_self (st : State) (id p : Nat) (n : MountNode)
    (h : getNode st id = some n) :
    getNode (setParent st id p) id = some { n with parent := some p } := by
  simp only [setParent, h]
  exact getNode_setNode_self ..

theorem setParent_getNode_ne (st : State) (id p id' : Nat) (h : id' ≠ id) :
    getNode (setParent st id p) id' = getNode st id' := by
  unfold setParent
  cases hg : getNode st id with
  | none => rfl
  | some n => exact getNode_setNode_ne _ _ _ _ h

/-- `UmountFlags::check_unsupported_flags` can never fail on the output of
`UmountFlags::from_bits_truncate`: truncation already dropped every bit
outside the four defined (= supported) ones. -/
theorem checkUnsupported_after_truncate (f : Nat) :
    UmountFlags.checkUnsupportedFlags (UmountFlags.fromBitsTruncate f) = .ok () := by
  have hlt : f &&& UmountFlags.definedBits < 16 := by
    have : (15 : Nat) < 2 ^ 4 := by norm_num
    simpa [UmountFlags.definedBits] using Nat.and_lt_two_pow f this
  have hz : ∀ r < 16, r &&&
      (0xFFFFFFFF ^^^ (UmountFlags.MNT_FORCE ||| UmountFlags.MNT_DETACH |||
        UmountFlags.MNT_EXPIRE ||| UmountFlags.UMOUNT_NOFOLLOW)) = 0 := by decide
  have := hz _ hlt
  simp only [UmountFlags.checkUnsupportedFlags, UmountFlags.fromBitsTruncate]
  simp [this]

theorem insertChild_nextId (st : State) (pid key c : Nat) :
    (insertChild st pid key c).nextId = st.nextId := by
  unfold insertChild
  cases getNode st pid <;> rfl

theorem removeChild_nextId (st : State) (pid key : Nat) :
    (removeChild st pid key).nextId = st.nextId := by
  unfold removeChild
  cases getNode st pid <;> rfl

theorem setMountpointDentry_nextId (st : State) (id : Nat) (d : Dentry) :
    (setMountpointDentry st id d).nextId = st.nextId := by
  unfold setMountpointDentry
  cases getNode st id <;> rfl

theorem setParent_nextId (st : State) (id p : Nat) :
    (setParent st id p).nextId = st.nextId := by
  unfold setParent
  cases getNode st id <;> rfl

theorem stateWF_insertChild (st : State) (pid key c : Nat)
    (hwf : stateWF st = true) : stateWF (insertChild st pid key c) = true := by
  unfold insertChild
  cases hg : getNode st pid with
  | none => exact hwf
  | some pn => exact stateWF_setNode _ _ _ hwf (stateWF_bound _ _ _ hwf hg)

/-- Successful `MountNode::mount`: when the mountpoint belongs to the node and
its dentry is a directory, the call allocates the child (fresh id, parent and
mountpoint pointing at the destination, empty children) and inserts it into
the node's children map under the dentry's key, replacing any occupant. -/
theorem mount_success (env : Env) (st : State) (N fs : Nat) (p : Path)
    (n0 : MountNode)
    (hmnt : p.mntnode = N)
    (hdir : p.dentry.typ = InodeType.dir)
    (hN : getNode st N = some n0)
    (hwf : stateWF st = true) :
    ∃ st', MountNode.mount env st N fs p = (st', .ok st.nextId) ∧
      getNode st' N
        = some { n0 with children := btInsert p.dentry.key st.nextId n0.children } ∧
      getNode st' st.nextId
        = some { root_dentry := env.fsRootDentry fs
                 mountpoint_dentry := some p.dentry
                 fs := fs
                 parent := some N
                 children := [] } ∧
      (∀ id, id ≠ N → id ≠ st.nextId → getNode st' id = getNode st id) ∧
      st'.nextId = st.nextId + 1 ∧
      stateWF st' = true := by
  have hNlt : N < st.nextId := stateWF_bound _ _ _ hwf hN
  have hNne : N ≠ st.nextId := Nat.ne_of_lt hNlt
  set rec0 : MountNode :=
    { root_dentry := env.fsRootDentry fs
      mountpoint_dentry := some p.dentry
      fs := fs
      parent := some N
      children := [] } with hrec
  have hmount : MountNode.mount env st N fs p
      = (insertChild (alloc st rec0).1 N p.dentry.key st.nextId, .ok st.nextId) := by
    subst hmnt
    simp [MountNode.mount, hdir, MountNode.new, hrec]
    exact ⟨rfl, rfl⟩
  refine ⟨_, hmount, ?_, ?_, ?_, ?_, ?_⟩
  · have h1 : getNode (alloc st rec0).1 N = some n0 := by
      rw [getNode_alloc_ne _ _ _ hNne, hN]
    exact insertChild_get_self _ _ _ _ _ h1
  · rw [insertChild_getNode_ne _ _ _ _ _ (Ne.symm hNne)]
    exact getNode_alloc_self ..
  · intro id hne1 hne2
    rw [insertChild_getNode_ne _ _ _ _ _ hne1, getNode_alloc_ne _ _ _ hne2]
  · rw [insertChild_nextId, alloc_nextId]
  · exact stateWF_insertChild _ _ _ _ (stateWF_alloc _ _ hwf)

/-! ### Claim theorems -/

/-- C1: the claim says `sys_umount` with an unrecognized flag bit returns an
`InvalidArgument`-class error and performs no mutation. The code does not:
`UmountFlags::from_bits_truncate` silently drops unrecognized bits, so
`check_unsupported_flags` can never fail, and its `Result` is discarded anyway
(no `?` at umount.rs line 22). At the failing input `flags = 0x10` (a bit
outside `{MNT_FORCE, MNT_DETACH, MNT_EXPIRE, UMOUNT_NOFOLLOW}`), `sys_umount`
proceeds, unmounts the child, mutates the tree and returns success 0. -/
theorem C1_sys_umount_unsupported_flag_not_rejected :
    (16 &&& UmountFlags.definedBits = 0) ∧
    (∀ f, UmountFlags.checkUnsupportedFlags (UmountFlags.fromBitsTruncate f) = .ok ()) ∧
    (sys_umount envA stA "/mnt" 16).2 = .ok 0 ∧
    MountNode.get stA 0 dA5 = some 1 ∧
    MountNode.get (sys_umount envA stA "/mnt" 16).1 0 dA5 = none :=
  ⟨rfl, checkUnsupported_after_truncate, rfl, rfl, rfl⟩

/-- C2 counterexample: the claim says the clone produced by `clone_mnt` (as
used for the detached root clone inside `copy_tree`, i.e. with `parent =
None`) has `mountpoint_entry = None`. But `clone_mnt` copies the old node's
`mountpoint_dentry` (mount.rs line 61): cloning fixture node `nA1`, whose
mountpoint is `some dA5`, yields a node whose mountpoint is `some dA5`, not
`none` — both via `clone_mnt` directly and via `copy_tree` rooted at node 1. -/
theorem C2_clone_mnt_mountpoint_not_none :
    getNode (MountNode.clone_mnt stA nA1.root_dentry nA1 none).1
        (MountNode.clone_mnt stA nA1.root_dentry nA1 none).2
      = some { root_dentry := nA1.root_dentry, mountpoint_dentry := some dA5,
               fs := 2, parent := none, children := [] } ∧
    (MountNode.copy_tree stA 1 nA1.root_dentry 4).map
        (fun r => (getNode r.1 r.2).map (·.mountpoint_dentry))
      = some (some (some dA5)) ∧
    (some dA5 ≠ (none : Option Dentry)) :=
  ⟨rfl, rfl, by simp⟩

/-- C2 amended: the root clone built by `clone_mnt` with `parent = None` (as
inside `copy_tree`) carries the caller-supplied root entry and the same
filesystem handle as the old node, has `parent = None` and an empty children
map, and its `mountpoint_entry` is *copied from the old node* (so it is `None`
only when the old node's is); the clone is a fresh node and no existing node
is modified. -/
theorem C2_clone_mnt_detached_replica (st : State) (rd : Dentry) (old : MountNode) :
    getNode (MountNode.clone_mnt st rd old none).1
        (MountNode.clone_mnt st rd old none).2
      = some { root_dentry := rd, mountpoint_dentry := old.mountpoint_dentry,
               fs := old.fs, parent := none, children := [] } ∧
    (MountNode.clone_mnt st rd old none).2 = st.nextId ∧
    (∀ id, id ≠ st.nextId →
      getNode (MountNode.clone_mnt st rd old none).1 id = getNode st id) :=
  ⟨getNode_alloc_self .., rfl, fun _ h => getNode_alloc_ne _ _ _ h⟩

/-- C3 counterexample: the claim says `attach_mnt` fails with the same
validation errors as `mount` on an invalid destination (in particular
`NotADirectory`). But `attach_mnt` (mount.rs 98-107) performs no validation
and cannot fail: at the destination `(node 0, dA7)` — whose dentry is a file,
so `mount` returns `ENOTDIR` — `attach_mnt` succeeds, registers the node and
sets its back-pointers. -/
theorem C3_attach_mnt_does_not_validate :
    MountNode.mount envA stA 0 9 { mntnode := 0, dentry := dA7 }
      = (stA, .error .ENOTDIR) ∧
    MountNode.get (MountNode.attach_mnt stA 1 { mntnode := 0, dentry := dA7 }) 0 dA7
      = some 1 ∧
    (getNode (MountNode.attach_mnt stA 1 { mntnode := 0, dentry := dA7 }) 1).map
        (fun n => (n.mountpoint_dentry, n.parent))
      = some (some dA7, some 0) :=
  ⟨rfl, rfl, rfl⟩

/-- C3 amended: `attach_mnt` performs no validation of the destination and
always succeeds; it first registers the new node in the destination mount
node's children map under the destination entry (at which intermediate point
the new node's own fields are still untouched), and only then sets the new
node's `mountpoint_entry` and `parent` to point back at the destination. -/
theorem C3_attach_mnt_registers_then_backlinks
    (st : State) (c : Nat) (p : Path) (pn cn : MountNode)
    (hp : getNode st p.mntnode = some pn)
    (hc : getNode st c = some cn)
    (hne : c ≠ p.mntnode) :
    MountNode.get (insertChild st p.mntnode p.dentry.key c) p.mntnode p.dentry
      = some c ∧
    getNode (insertChild st p.mntnode p.dentry.key c) c = some cn ∧
    MountNode.attach_mnt st c p
      = setParent (setMountpointDentry
          (insertChild st p.mntnode p.dentry.key c) c p.dentry) c p.mntnode ∧
    MountNode.get (MountNode.attach_mnt st c p) p.mntnode p.dentry = some c ∧
    getNode (MountNode.attach_mnt st c p) c
      = some { cn with
               mountpoint_dentry := some p.dentry
               parent := some p.mntnode } := by
  have h1 := insertChild_get_self st p.mntnode p.dentry.key c pn hp
  have h2 := insertChild_getNode_ne st p.mntnode p.dentry.key c c hne
  refine ⟨?_, ?_, rfl, ?_, ?_⟩
  · simp [MountNode.get, h1, btGet_btInsert_self]
  · rw [h2, hc]
  · show MountNode.get (setParent (setMountpointDentry _ c p.dentry) c p.mntnode)
        p.mntnode p.dentry = some c
    unfold MountNode.get
    rw [setParent_getNode_ne _ _ _ _ (Ne.symm hne),
      setMountpointDentry_getNode_ne _ _ _ _ (Ne.symm hne), h1]
    simp [btGet_btInsert_self]
  · show getNode (setParent (setMountpointDentry _ c p.dentry) c p.mntnode) c = _
    have h3 : getNode (insertChild st p.mntnode p.dentry.key c) c = some cn := by
      rw [h2, hc]
    rw [setParent_getNode_self _ _ _ _
      (setMountpointDentry_getNode_self _ _ _ _ h3)]

/-- C3 witness: the amended theorem applied to the fixture heap at the
directory destination `(node 0, dA5)` with new node 1. -/
theorem C3_attach_mnt_registers_then_backlinks_witness :
    MountNode.get (insertChild stA 0 dA5.key 1) 0 dA5 = some 1 ∧
    getNode (insertChild stA 0 dA5.key 1) 1 = some nA1 ∧
    MountNode.attach_mnt stA 1 { mntnode := 0, dentry := dA5 }
      = setParent (setMountpointDentry (insertChild stA 0 dA5.key 1) 1 dA5) 1 0 ∧
    MountNode.get (MountNode.attach_mnt stA 1 { mntnode := 0, dentry := dA5 }) 0 dA5
      = some 1 ∧
    getNode (MountNode.attach_mnt stA 1 { mntnode := 0, dentry := dA5 }) 1
      = some { nA1 with
               mountpoint_dentry := some dA5
               parent := some 0 } :=
  C3_attach_mnt_registers_then_backlinks stA 1 { mntnode := 0, dentry := dA5 }
    nA0 nA1 rfl rfl (by decide)

/-- C5: after `mount(N, fs, E)` succeeds, `lookup_child(N, E)` (= `get`)
returns the newly created child, whose `parent` is N and whose
`mountpoint_entry` is E; a second successful mount at the same entry replaces
the mapping, so `lookup_child(N, E)` returns the second, distinct child. -/
theorem C5_mount_creates_and_replaces (env : Env) (st : State) (N fs1 fs2 : Nat)
    (p : Path) (n0 : MountNode)
    (hmnt : p.mntnode = N) (hdir : p.dentry.typ = InodeType.dir)
    (hN : getNode st N = some n0) (hwf : stateWF st = true) :
    ∃ st1 c1 st2 c2,
      MountNode.mount env st N fs1 p = (st1, .ok c1) ∧
      MountNode.get st1 N p.dentry = some c1 ∧
      getNode st1 c1 = some { root_dentry := env.fsRootDentry fs1
                              mountpoint_dentry := some p.dentry
                              fs := fs1
                              parent := some N
                              children := [] } ∧
      MountNode.mount env st1 N fs2 p = (st2, .ok c2) ∧
      c2 ≠ c1 ∧
      MountNode.get st2 N p.dentry = some c2 := by
  obtain ⟨st1, hm1, hN1, hc1, hfr1, hnext1, hwf1⟩ :=
    mount_success env st N fs1 p n0 hmnt hdir hN hwf
  obtain ⟨st2, hm2, hN2, hc2, hfr2, hnext2, hwf2⟩ :=
    mount_success env st1 N fs2 p _ hmnt hdir hN1 hwf1
  refine ⟨st1, st.nextId, st2, st1.nextId, hm1, ?_, hc1, hm2, ?_, ?_⟩
  · simp [MountNode.get, hN1, btGet_btInsert_self]
  · rw [hnext1]
    omega
  · simp [MountNode.get, hN2, btGet_btInsert_self]

/-- C5 witness: the theorem applied on the fixture heap, mounting fs 3 and
then fs 4 at entry `dA5` of node 0. -/
theorem C5_mount_creates_and_replaces_witness :
    ∃ st1 c1 st2 c2,
      MountNode.mount envA stA 0 3 { mntnode := 0, dentry := dA5 } = (st1, .ok c1) ∧
      MountNode.get st1 0 dA5 = some c1 ∧
      getNode st1 c1 = some { root_dentry := envA.fsRootDentry 3
                              mountpoint_dentry := some dA5
                              fs := 3
                              parent := some 0
                              children := [] } ∧
      MountNode.mount envA st1 0 4 { mntnode := 0, dentry := dA5 } = (st2, .ok c2) ∧
      c2 ≠ c1 ∧
      MountNode.get st2 0 dA5 = some c2 :=
  C5_mount_creates_and_replaces envA stA 0 3 4 { mntnode := 0, dentry := dA5 } nA0
    rfl rfl rfl (by decide)

/-- C6: `umount(N, P)` fails with `EINVAL` when P's mount node is not N and
with `ENOENT` when no child is mounted at P's entry, in both cases returning
the state unchanged; on success it removes and returns the child, after which
`lookup_child` on the same entry returns nothing, while the removed node's
own record (children map and filesystem handle included) is unchanged. -/
theorem C6_umount_cases (st : State) (N : Nat) (n : MountNode)
    (hN : getNode st N = some n) :
    (∀ p : Path, p.mntnode ≠ N → MountNode.umount st N p = (st, .error .EINVAL)) ∧
    (∀ p : Path, p.mntnode = N → btGet p.dentry.key n.children = none →
      MountNode.umount st N p = (st, .error .ENOENT)) ∧
    (∀ p : Path, ∀ C, p.mntnode = N → btGet p.dentry.key n.children = some C →
      MountNode.umount st N p = (removeChild st N p.dentry.key, .ok C) ∧
      MountNode.get (removeChild st N p.dentry.key) N p.dentry = none ∧
      (∀ cn, C ≠ N → getNode st C = some cn →
        getNode (removeChild st N p.dentry.key) C = some cn)) := by
  refine ⟨?_, ?_, ?_⟩
  · intro p hp
    simp [MountNode.umount, hp]
  · intro p hp hnone
    subst hp
    simp [MountNode.umount, hN, hnone]
  · intro p C hp hsome
    subst hp
    refine ⟨by simp [MountNode.umount, hN, hsome], ?_, ?_⟩
    · simp [MountNode.get, removeChild_get_self _ _ _ _ hN, btGet_btRemove_self]
    · intro cn hne hC
      rw [removeChild_getNode_ne _ _ _ _ hne, hC]

/-- C6 witness: the theorem applied on the fixture heap at node 0 (which has
child 1 mounted at key 5 and nothing at key 7). -/
theorem C6_umount_cases_witness :
    (∀ p : Path, p.mntnode ≠ 0 → MountNode.umount stA 0 p = (stA, .error .EINVAL)) ∧
    (∀ p : Path, p.mntnode = 0 → btGet p.dentry.key nA0.children = none →
      MountNode.umount stA 0 p = (stA, .error .ENOENT)) ∧
    (∀ p : Path, ∀ C, p.mntnode = 0 → btGet p.dentry.key nA0.children = some C →
      MountNode.umount stA 0 p = (removeChild stA 0 p.dentry.key, .ok C) ∧
      MountNode.get (removeChild stA 0 p.dentry.key) 0 p.dentry = none ∧
      (∀ cn, C ≠ 0 → getNode stA C = some cn →
        getNode (removeChild stA 0 p.dentry.key) C = some cn)) :=
  C6_umount_cases stA 0 nA0 rfl

/-- C9: after `umount` removes child C (mounted at entry E of node N), or a
second `mount` at E replaces it, C's own record — in particular its `parent`
and `mountpoint_entry` back-pointers — is left exactly as it was: nothing
clears them on detachment or replacement. -/
theorem C9_detached_child_keeps_backpointers (env : Env) (st : State)
    (N C : Nat) (E : Dentry) (n cn : MountNode)
    (hN : getNode st N = some n)
    (hchild : btGet E.key n.children = some C)
    (hC : getNode st C = some cn)
    (hne : C ≠ N)
    (hwf : stateWF st = true) :
    (MountNode.umount st N { mntnode := N, dentry := E }
        = (removeChild st N E.key, .ok C) ∧
      getNode (removeChild st N E.key) C = some cn) ∧
    (∀ fs2, E.typ = InodeType.dir →
      ∃ st2 c2, MountNode.mount env st N fs2 { mntnode := N, dentry := E }
          = (st2, .ok c2) ∧ c2 ≠ C ∧
        MountNode.get st2 N E = some c2 ∧
        getNode st2 C = some cn) := by
  have hClt : C < st.nextId := stateWF_bound _ _ _ hwf hC
  refine ⟨⟨?_, ?_⟩, ?_⟩
  · simp [MountNode.umount, hN, hchild]
  · rw [removeChild_getNode_ne _ _ _ _ hne, hC]
  · intro fs2 hdir
    obtain ⟨st2, hm, hN2, hc2, hfr, hnext, hwf2⟩ :=
      mount_success env st N fs2 { mntnode := N, dentry := E } n rfl hdir hN hwf
    refine ⟨st2, st.nextId, hm, by omega, ?_, ?_⟩
    · simp [MountNode.get, hN2, btGet_btInsert_self]
    · rw [hfr C hne (by omega), hC]

/-- C9 witness: the theorem applied on the fixture heap, with child 1 mounted
at entry `dA5` of node 0. -/
theorem C9_detached_child_keeps_backpointers_witness :
    (MountNode.umount stA 0 { mntnode := 0, dentry := dA5 }
        = (removeChild stA 0 dA5.key, .ok 1) ∧
      getNode (removeChild stA 0 dA5.key) 1 = some nA1) ∧
    (∀ fs2, dA5.typ = InodeType.dir →
      ∃ st2 c2, MountNode.mount envA stA 0 fs2 { mntnode := 0, dentry := dA5 }
          = (st2, .ok c2) ∧ c2 ≠ 1 ∧
        MountNode.get st2 0 dA5 = some c2 ∧
        getNode st2 1 = some nA1) :=
  C9_detached_child_keeps_backpointers envA stA 0 1 dA5 nA0 nA1
    rfl rfl rfl (by decide) (by decide)

/-- C8: the claim says an invocation of `sys_mount` that dispatches to the
bind-mount flow and fails there returns a negative error code. The code does
not: the dispatch calls `do_loopback(...)` as a statement, discarding its
`Result` (mount.rs syscall line 47), and then returns `Ok(0)` unconditionally
(line 60). At the failing input `devname = ""` with `MS_BIND` set,
`do_loopback` fails with `ENOENT` and performs no mutation, yet `sys_mount`
returns success 0. -/
theorem C8_sys_mount_bind_failure_returns_success :
    do_loopback envA stA "" { mntnode := 0, dentry := dA5 } 4
      = some (stA, .error .ENOENT) ∧
    sys_mount envA stA "" "/dst" "" 4096 4 = some (stA, .ok 0) :=
  ⟨rfl, rfl⟩

/-- C10: every invocation of `sys_mount` that reaches the fresh-mount branch
(no remount/bind/propagation-type/move flag) is independent of the
user-supplied device name and fs-type arguments, and the filesystem it mounts
at the target is the ext2 instance opened from the hard-coded block device
`"vext2"` (`do_new_mount`, mount.rs syscall 116-123). -/
theorem C10_fresh_mount_ignores_devname (env : Env) (st : State)
    (dev1 dev2 dir fst1 fst2 : String) (flags fuel : Nat) (p : Path)
    (hdir : ¬ dir = "")
    (hlookup : env.lookup dir = .ok p)
    (hrem : MountFlags.hasFlag (MountFlags.fromBitsTruncate flags)
      MountFlags.MS_REMOUNT = false)
    (hbind : MountFlags.hasFlag (MountFlags.fromBitsTruncate flags)
      MountFlags.MS_BIND = false)
    (hsh : MountFlags.hasFlag (MountFlags.fromBitsTruncate flags)
      MountFlags.MS_SHARED = false)
    (hpr : MountFlags.hasFlag (MountFlags.fromBitsTruncate flags)
      MountFlags.MS_PRIVATE = false)
    (hsl : MountFlags.hasFlag (MountFlags.fromBitsTruncate flags)
      MountFlags.MS_SLAVE = false)
    (hub : MountFlags.hasFlag (MountFlags.fromBitsTruncate flags)
      MountFlags.MS_UNBINDABLE = false)
    (hmv : MountFlags.hasFlag (MountFlags.fromBitsTruncate flags)
      MountFlags.MS_MOVE = false) :
    sys_mount env st dev1 dir fst1 flags fuel
      = sys_mount env st dev2 dir fst2 flags fuel ∧
    sys_mount env st dev1 dir fst1 flags fuel
      = (do_new_mount env st dev1 p).map (fun r => (r.1, .ok 0)) ∧
    (∀ bd fsh, env.startBlockDevice "vext2" = some bd →
      env.ext2Open bd = some fsh →
      do_new_mount env st dev1 p
        = some ((Path.mount env st p fsh).1,
            match (Path.mount env st p fsh).2 with
            | .error e => .error e
            | .ok _ => .ok ())) := by
  have hbranch : ∀ dev fst : String, sys_mount env st dev dir fst flags fuel
      = (do_new_mount env st dev p).map (fun r => (r.1, .ok 0)) := by
    intro dev fst
    simp only [sys_mount, hdir, if_false, hlookup, hrem, hbind, hsh, hpr, hsl,
      hub, hmv, Bool.false_and, Bool.or_self, Bool.false_or, if_neg,
      Bool.false_eq_true, not_false_eq_true]
    cases h : do_new_mount env st dev p <;> simp [h]
  refine ⟨?_, hbranch dev1 fst1, ?_⟩
  · rw [hbranch dev1 fst1, hbranch dev2 fst2]
    rfl
  · intro bd fsh hbd hopen
    simp only [do_new_mount, hbd, hopen]
    cases h : Path.mount env st p fsh with
    | mk st' r =>
      cases r <;> simp

/-- C10 witness: the theorem applied with two different device names and
fs-type strings and `flags = 0` on the fixture heap. -/
theorem C10_fresh_mount_ignores_devname_witness :
    sys_mount envA stA "devA" "/t" "ext4" 0 4
      = sys_mount envA stA "devB" "/t" "xfs" 0 4 ∧
    sys_mount envA stA "devA" "/t" "ext4" 0 4
      = (do_new_mount envA stA "devA" { mntnode := 0, dentry := dA5 }).map
          (fun r => (r.1, .ok 0)) ∧
    (∀ bd fsh, envA.startBlockDevice "vext2" = some bd →
      envA.ext2Open bd = some fsh →
      do_new_mount envA stA "devA" { mntnode := 0, dentry := dA5 }
        = some ((Path.mount envA stA { mntnode := 0, dentry := dA5 } fsh).1,
            match (Path.mount envA stA { mntnode := 0, dentry := dA5 } fsh).2 with
            | .error e => .error e
            | .ok _ => .ok ())) :=
  C10_fresh_mount_ignores_devname envA stA "devA" "devB" "/t" "ext4" "xfs" 0 4
    { mntnode := 0, dentry := dA5 } (by decide) rfl rfl rfl rfl rfl rfl rfl rfl

theorem syncRun_single (ok : Nat → Bool) (i : Nat) :
    syncRun ok [i] = ([i], ok i) := by
  by_cases h : ok i <;> simp [syncRun, h]

theorem syncRun_append (ok : Nat → Bool) (l1 l2 : List Nat) :
    syncRun ok (l1 ++ l2)
      = if (syncRun ok l1).2 then
          ((syncRun ok l1).1 ++ (syncRun ok l2).1, (syncRun ok l2).2)
        else syncRun ok l1 := by
  induction l1 with
  | nil => simp [syncRun]
  | cons i rest ih =>
    by_cases h : ok i
    · by_cases h2 : (syncRun ok rest).2 <;>
        simp [syncRun, h, ih, h2]
    · simp [syncRun, h]

theorem syncRun_all_ok (ok : Nat → Bool) (l : List Nat)
    (h : ∀ i ∈ l, ok i = true) : syncRun ok l = (l, true) := by
  induction l with
  | nil => rfl
  | cons i rest ih =>
    simp [syncRun, h i (List.mem_cons_self i rest),
      ih (fun j hj => h j (List.mem_cons_of_mem _ hj))]

theorem syncRun_isPrefix (ok : Nat → Bool) (l : List Nat) :
    (syncRun ok l).1 <+: l := by
  induction l with
  | nil => simp [syncRun]
  | cons i rest ih =>
    by_cases h : ok i
    · obtain ⟨s, hs⟩ := ih
      exact ⟨s, by simp [syncRun, h, hs]⟩
    · exact ⟨rest, by simp [syncRun, h]⟩

theorem syncRun_stops (ok : Nat → Bool) (l : List Nat)
    (h : (syncRun ok l).2 = false) :
    ∃ pre j, (syncRun ok l).1 = pre ++ [j] ∧ ok j = false ∧
      ∀ k ∈ pre, ok k = true := by
  induction l with
  | nil => simp [syncRun] at h
  | cons i rest ih =>
    by_cases hi : ok i
    · simp only [syncRun, if_pos hi] at h ⊢
      obtain ⟨pre, j, h1, h2, h3⟩ := ih h
      refine ⟨i :: pre, j, by simp [h1], h2, ?_⟩
      intro k hk
      rcases List.mem_cons.mp hk with hk | hk
      · exact hk ▸ hi
      · exact h3 k hk
    · refine ⟨[], i, by simp [syncRun, hi], by simpa using hi, by simp⟩

theorem MTree.size_pos (t : MTree) : 1 ≤ MTree.size t := by
  cases t
  simp [MTree.size]

/-- The trace equation for `MountNode::sync`: on an extracted subtree with
enough fuel, the invoked per-node filesystem syncs are exactly the reference
run of the post-order id list. Proved together with the corresponding
statement for the children loop. -/
theorem sync_trace_both (env : Env) (st : State) : ∀ fuel : Nat,
    (∀ t, extractsTo st t = true → MTree.size t ≤ fuel →
      MountNode.sync env st fuel t.id
        = some (syncRun (nodeSyncOk env st) (postorder t))) ∧
    (∀ cs, extractsToChildren st cs = true → sizeChildren cs ≤ fuel →
      syncChildrenList env st fuel (btValues (childIdPairs cs))
        = some (syncRun (nodeSyncOk env st) (postorderChildren cs))) := by
  intro fuel
  induction fuel with
  | zero =>
    constructor
    · intro t hex hsz
      have := MTree.size_pos t
      omega
    · intro cs hex hsz
      cases cs with
      | nil => simp [syncChildrenList, childIdPairs, btValues, postorderChildren, syncRun]
      | cons kc rest =>
        exfalso
        have := MTree.size_pos kc.2
        simp [sizeChildren] at hsz
        omega
  | succ f ih =>
    have hT : ∀ t, extractsTo st t = true → MTree.size t ≤ f + 1 →
        MountNode.sync env st (f + 1) t.id
          = some (syncRun (nodeSyncOk env st) (postorder t)) := by
      intro t hex hsz
      obtain ⟨i, rd, mp, f0, cs⟩ := t
      simp only [extractsTo] at hex
      cases hg : getNode st i with
      | none => rw [hg] at hex; simp at hex
      | some n =>
        rw [hg] at hex
        simp only [Bool.and_eq_true, decide_eq_true_eq] at hex
        obtain ⟨⟨⟨⟨hrd, hmp⟩, hfs⟩, hch⟩, hexcs⟩ := hex
        have hszc : sizeChildren cs ≤ f := by
          simp [MTree.size] at hsz
          omega
        have hrec := ih.2 cs hexcs hszc
        have hok : nodeSyncOk env st i = env.fsSync n.fs := by
          simp [nodeSyncOk, hg, hfs]
        show MountNode.sync env st (f + 1) i = _
        have hun : MountNode.sync env st (f + 1) i
            = match syncChildrenList env st f (btValues n.children) with
              | none => none
              | some (tr, false) => some (tr, false)
              | some (tr, true) => some (tr ++ [i], env.fsSync n.fs) := by
          rw [MountNode.sync, hg]
        rw [hun, hch, hrec]
        have hpost : postorder (MTree.node i rd mp f0 cs)
            = postorderChildren cs ++ [i] := rfl
        rw [hpost, syncRun_append, syncRun_single]
        rcases hpair : syncRun (nodeSyncOk env st) (postorderChildren cs) with ⟨tr, flag⟩
        cases flag <;> simp [hok]
    refine ⟨hT, ?_⟩
    intro cs
    induction cs with
    | nil =>
      intro _ _
      simp [syncChildrenList, childIdPairs, btValues, postorderChildren, syncRun]
    | cons kc rest ihl =>
      intro hex hsz
      simp only [extractsToChildren, Bool.and_eq_true] at hex
      obtain ⟨hexc, hexrest⟩ := hex
      have hszc : MTree.size kc.2 ≤ f + 1 := by
        simp [sizeChildren] at hsz
        omega
      have hszrest : sizeChildren rest ≤ f + 1 := by
        have := MTree.size_pos kc.2
        simp [sizeChildren] at hsz
        omega
      have h1 := hT kc.2 hexc hszc
      have h2 := ihl hexrest hszrest
      have hpairs : btValues (childIdPairs (kc :: rest))
          = kc.2.id :: btValues (childIdPairs rest) := rfl
      rw [hpairs, syncChildrenList, h1, h2]
      have hpostc : postorderChildren (kc :: rest)
          = postorder kc.2 ++ postorderChildren rest := rfl
      rw [hpostc, syncRun_append]
      rcases hp1 : syncRun (nodeSyncOk env st) (postorder kc.2) with ⟨tr1, flag1⟩
      cases flag1 <;> simp

/-- C7: on every extracted finite subtree, `sync` invokes the per-node
filesystem syncs exactly as the reference post-order run: (a) the trace is
`syncRun` of the post-order id list; (b) when every sync succeeds, the trace
is exactly the post-order list — every reachable node once, children before
the node itself; (c) with distinct node ids no node's own sync is invoked
more than once; (d) on failure the trace stops at the first failing sync, so
after a failing child nothing further — in particular not the current node's
own filesystem sync — is invoked. -/
theorem C7_sync_postorder (env : Env) (st : State) (fuel : Nat) (t : MTree)
    (hex : extractsTo st t = true)
    (hfuel : MTree.size t ≤ fuel) :
    MountNode.sync env st fuel t.id
      = some (syncRun (nodeSyncOk env st) (postorder t)) ∧
    ((∀ i ∈ postorder t, nodeSyncOk env st i = true) →
      MountNode.sync env st fuel t.id = some (postorder t, true)) ∧
    ((postorder t).Nodup →
      ∀ i, (syncRun (nodeSyncOk env st) (postorder t)).1.count i ≤ 1) ∧
    (∀ tr, MountNode.sync env st fuel t.id = some (tr, false) →
      ∃ pre j, tr = pre ++ [j] ∧ nodeSyncOk env st j = false ∧
        ∀ k ∈ pre, nodeSyncOk env st k = true) := by
  have heq := (sync_trace_both env st fuel).1 t hex hfuel
  refine ⟨heq, ?_, ?_, ?_⟩
  · intro hall
    rw [heq, syncRun_all_ok _ _ hall]
  · intro hnd i
    have hpre := syncRun_isPrefix (nodeSyncOk env st) (postorder t)
    calc (syncRun (nodeSyncOk env st) (postorder t)).1.count i
        ≤ (postorder t).count i := hpre.sublist.count_le i
      _ ≤ 1 := List.nodup_iff_count_le_one.mp hnd i
  · intro tr htr
    rw [heq] at htr
    have hpair : syncRun (nodeSyncOk env st) (postorder t) = (tr, false) :=
      Option.some.inj htr
    have h2 : (syncRun (nodeSyncOk env st) (postorder t)).2 = false := by
      rw [hpair]
    obtain ⟨pre, j, h1, hj, hk⟩ := syncRun_stops _ _ h2
    rw [hpair] at h1
    exact ⟨pre, j, h1, hj, hk⟩

/-- C7 witness: the theorem applied to the fixture heap (root 0 with child 1):
the post-order id list is `[1, 0]` and, with every sync succeeding, the run
is `([1, 0], true)`. -/
theorem C7_sync_postorder_witness :
    extractsTo stA tA = true ∧ MTree.size tA ≤ 2 ∧
    postorder tA = [1, 0] ∧
    syncRun (nodeSyncOk envA stA) (postorder tA) = ([1, 0], true) ∧
    (MountNode.sync envA stA 2 tA.id
        = some (syncRun (nodeSyncOk envA stA) (postorder tA)) ∧
      ((∀ i ∈ postorder tA, nodeSyncOk envA stA i = true) →
        MountNode.sync envA stA 2 tA.id = some (postorder tA, true)) ∧
      ((postorder tA).Nodup →
        ∀ i, (syncRun (nodeSyncOk envA stA) (postorder tA)).1.count i ≤ 1) ∧
      (∀ tr, MountNode.sync envA stA 2 tA.id = some (tr, false) →
        ∃ pre j, tr = pre ++ [j] ∧ nodeSyncOk envA stA j = false ∧
          ∀ k ∈ pre, nodeSyncOk envA stA k = true)) :=
  ⟨by decide, by decide, by decide, by decide,
    C7_sync_postorder envA stA 2 tA (by decide) (by decide)⟩

theorem btInsert_append (k : Nat) (v : α) (m : List (Nat × α))
    (h : ∀ x ∈ m, x.1 < k) : btInsert k v m = m ++ [(k, v)] := by
  induction m with
  | nil => rfl
  | cons kv rest ih =>
    obtain ⟨ka, va⟩ := kv
    have hk : ka < k := h (ka, va) (List.mem_cons_self _ _)
    have h1 : ¬ k < ka := by omega
    have h2 : ¬ k = ka := by omega
    simp [btInsert, h1, h2, ih (fun x hx => h x (List.mem_cons_of_mem _ hx))]

theorem strictAsc_tail (a : Nat) (l : List Nat)
    (h : strictAsc (a :: l) = true) : strictAsc l = true := by
  cases l with
  | nil => rfl
  | cons b rest =>
    simp only [strictAsc, Bool.and_eq_true] at h
    exact h.2

theorem strictAsc_head (a : Nat) (l : List Nat)
    (h : strictAsc (a :: l) = true) : ∀ b ∈ l, a < b := by
  induction l generalizing a with
  | nil =>
    intro b hb
    simp at hb
  | cons c rest ih =>
    intro b hb
    simp only [strictAsc, Bool.and_eq_true, decide_eq_true_eq] at h
    rcases List.mem_cons.mp hb with hb | hb
    · exact hb ▸ h.1
    · exact Nat.lt_trans h.1 (ih c h.2 b hb)

/-- Extraction only looks at the heap entries of the subtree's own ids, so it
is stable under any heap change outside them. -/
theorem extractsTo_frame_both (st st' : State) : ∀ n : Nat,
    (∀ t, MTree.size t ≤ n →
      (∀ i ∈ postorder t, getNode st' i = getNode st i) →
      extractsTo st t = true → extractsTo st' t = true) ∧
    (∀ cs, sizeChildren cs ≤ n →
      (∀ i ∈ postorderChildren cs, getNode st' i = getNode st i) →
      extractsToChildren st cs = true → extractsToChildren st' cs = true) := by
  intro n
  induction n with
  | zero =>
    constructor
    · intro t h
      have := MTree.size_pos t
      omega
    · intro cs h
      cases cs with
      | nil => intro _ _; rfl
      | cons kc rest =>
        exfalso
        have := MTree.size_pos kc.2
        simp [sizeChildren] at h
        omega
  | succ n ih =>
    have hT : ∀ t, MTree.size t ≤ n + 1 →
        (∀ i ∈ postorder t, getNode st' i = getNode st i) →
        extractsTo st t = true → extractsTo st' t = true := by
      intro t hsz hfr hex
      obtain ⟨i, rd, mp, f0, cs⟩ := t
      simp only [extractsTo] at hex ⊢
      have hgi : getNode st' i = getNode st i := by
        refine hfr i ?_
        show i ∈ postorderChildren cs ++ [i]
        simp
      rw [hgi]
      cases hg : getNode st i with
      | none =>
        rw [hg] at hex
        simp at hex
      | some nd =>
        rw [hg] at hex
        simp only [Bool.and_eq_true] at hex ⊢
        refine ⟨hex.1, ?_⟩
        refine ih.2 cs ?_ ?_ hex.2
        · simp only [MTree.size] at hsz
          omega
        · intro j hj
          refine hfr j ?_
          show j ∈ postorderChildren cs ++ [i]
          exact List.mem_append_left _ hj
    refine ⟨hT, ?_⟩
    intro cs
    induction cs with
    | nil => intro _ _ _; rfl
    | cons kc rest ihl =>
      intro hsz hfr hex
      simp only [extractsToChildren, Bool.and_eq_true] at hex ⊢
      have hszc : MTree.size kc.2 ≤ n + 1 := by
        simp only [sizeChildren] at hsz
        omega
      have hszr : sizeChildren rest ≤ n + 1 := by
        have := MTree.size_pos kc.2
        simp only [sizeChildren] at hsz
        omega
      refine ⟨hT kc.2 hszc ?_ hex.1, ihl hszr ?_ hex.2⟩
      · intro j hj
        refine hfr j ?_
        show j ∈ postorder kc.2 ++ postorderChildren rest
        exact List.mem_append_left _ hj
      · intro j hj
        refine hfr j ?_
        show j ∈ postorder kc.2 ++ postorderChildren rest
        exact List.mem_append_right _ hj

/-- The skeleton preserves size: `sizeS ∘ strip = size`. -/
theorem size_strip_both : ∀ n : Nat,
    (∀ t : MTree, MTree.size t ≤ n → STree.sizeS (MTree.strip t) = MTree.size t) ∧
    (∀ cs, sizeChildren cs ≤ n →
      sizeSChildren (stripChildren cs) = sizeChildren cs) := by
  intro n
  induction n with
  | zero =>
    constructor
    · intro t h
      have := MTree.size_pos t
      omega
    · intro cs h
      cases cs with
      | nil => rfl
      | cons kc rest =>
        exfalso
        have := MTree.size_pos kc.2
        simp [sizeChildren] at h
        omega
  | succ n ih =>
    have hT : ∀ t : MTree, MTree.size t ≤ n + 1 →
        STree.sizeS (MTree.strip t) = MTree.size t := by
      intro t hsz
      obtain ⟨i, rd, mp, f0, cs⟩ := t
      simp only [MTree.strip, STree.sizeS, MTree.size]
      have : sizeSChildren (stripChildren cs) = sizeChildren cs := by
        refine ih.2 cs ?_
        simp only [MTree.size] at hsz
        omega
      omega
    refine ⟨hT, ?_⟩
    intro cs
    induction cs with
    | nil => intro _; rfl
    | cons kc rest ihl =>
      intro hsz
      have hszc : MTree.size kc.2 ≤ n + 1 := by
        simp only [sizeChildren] at hsz
        omega
      have hszr : sizeChildren rest ≤ n + 1 := by
        have := MTree.size_pos kc.2
        simp only [sizeChildren] at hsz
        omega
      simp only [stripChildren, sizeSChildren, sizeChildren]
      rw [hT kc.2 hszc, ihl hszr]

theorem extractsTo_frame (t : MTree) (st st' : State)
    (hfr : ∀ i ∈ postorder t, getNode st' i = getNode st i)
    (hex : extractsTo st t = true) : extractsTo st' t = true :=
  (extractsTo_frame_both st st' (MTree.size t)).1 t le_rfl hfr hex

theorem extractsToChildren_frame (cs : List (Nat × MTree)) (st st' : State)
    (hfr : ∀ i ∈ postorderChildren cs, getNode st' i = getNode st i)
    (hex : extractsToChildren st cs = true) : extractsToChildren st' cs = true :=
  (extractsTo_frame_both st st' (sizeChildren cs)).2 cs le_rfl hfr hex

theorem extractsTo_root (st : State) (t : MTree) (hex : extractsTo st t = true) :
    ∃ n, getNode st t.id = some n ∧ n.root_dentry = t.rd ∧
      n.mountpoint_dentry = t.mp ∧ n.fs = t.fs ∧
      n.children = childIdPairs t.children ∧
      extractsToChildren st t.children = true := by
  obtain ⟨i, rd, mp, f0, cs⟩ := t
  simp only [extractsTo] at hex
  cases hg : getNode st i with
  | none =>
    rw [hg] at hex
    simp at hex
  | some n =>
    rw [hg] at hex
    simp only [Bool.and_eq_true, decide_eq_true_eq] at hex
    exact ⟨n, hg, hex.1.1.1.1, hex.1.1.1.2, hex.1.1.2, hex.1.2, hex.2⟩

theorem treeWF_root (t : MTree) (h : treeWF t = true) :
    strictAsc (List.map Prod.fst (childIdPairs t.children)) = true ∧
      treeWFChildren t.children = true := by
  obtain ⟨i, rd, mp, f0, cs⟩ := t
  simp only [treeWF, Bool.and_eq_true] at h
  exact h

theorem treeWFChildren_cons (kc : Nat × MTree) (rest : List (Nat × MTree))
    (h : treeWFChildren (kc :: rest) = true) :
    (∃ d, kc.2.mp = some d ∧ d.key = kc.1) ∧ treeWF kc.2 = true ∧
      treeWFChildren rest = true := by
  simp only [treeWFChildren, Bool.and_eq_true] at h
  obtain ⟨⟨h1, h2⟩, h3⟩ := h
  refine ⟨?_, h2, h3⟩
  cases hmp : kc.2.mp with
  | none =>
    rw [hmp] at h1
    simp at h1
  | some d =>
    rw [hmp] at h1
    simp only [decide_eq_true_eq] at h1
    exact ⟨d, rfl, h1⟩

theorem childIdPairs_keys (cs : List (Nat × MTree)) :
    List.map Prod.fst (childIdPairs cs) = List.map Prod.fst cs := by
  induction cs with
  | nil => rfl
  | cons kc rest ih => simp [childIdPairs, ih]

theorem extractsToChildren_cons (st : State) (kc : Nat × MTree)
    (rest : List (Nat × MTree))
    (h : extractsToChildren st (kc :: rest) = true) :
    extractsTo st kc.2 = true ∧ extractsToChildren st rest = true := by
  simp only [extractsToChildren, Bool.and_eq_true] at h
  exact h

theorem getNode_clone_ne (st : State) (rd : Dentry) (old : MountNode)
    (pr : Option Nat) (id : Nat) (h : id ≠ st.nextId) :
    getNode (MountNode.clone_mnt st rd old pr).1 id = getNode st id :=
  getNode_alloc_ne _ _ _ h

theorem clone_nextId (st : State) (rd : Dentry) (old : MountNode)
    (pr : Option Nat) :
    (MountNode.clone_mnt st rd old pr).1.nextId = st.nextId + 1 := rfl

/-- Behaviour of one full children pass of `copy_tree`'s loop
(`copyTreeChildren`): every child of the popped original gets a fresh clone
seed (same mountpoint and filesystem, empty children, parent = the popped
clone), the popped clone's children map receives exactly the original's keys
bound to the fresh ids, the two stacks grow in lock step, and nothing else in
the heap changes. -/
theorem copyTreeChildren_spec : ∀ (cs : List (Nat × MTree)) (st : State)
    (p : Nat) (pn : MountNode) (stack newStack : List Nat) (N0 : Nat),
    extractsToChildren st cs = true →
    treeWFChildren cs = true →
    strictAsc (List.map Prod.fst (childIdPairs cs)) = true →
    getNode st p = some pn →
    p < st.nextId →
    N0 ≤ st.nextId →
    N0 ≤ p →
    (∀ i ∈ postorderChildren cs, i < N0) →
    (∀ x ∈ pn.children, ∀ kc ∈ cs, x.1 < kc.1) →
    ∃ st',
      copyTreeChildren st p stack newStack (btValues (childIdPairs cs))
        = some (st', (List.map (fun kc => MTree.id kc.2) cs).reverse ++ stack,
                 (idRange st.nextId cs.length).reverse ++ newStack) ∧
      st'.nextId = st.nextId + cs.length ∧
      (∀ id, id ≠ p → id < st.nextId → getNode st' id = getNode st id) ∧
      getNode st' p
        = some { pn with children := pn.children ++ seedPairs cs st.nextId } ∧
      List.Forall₂ (SeedAt st') (List.map Prod.snd cs)
        (idRange st.nextId cs.length) := by
  intro cs
  induction cs with
  | nil =>
    intro st p pn stack newStack N0 hex hwf hasc hp hplt hN0 hpN0 hids hacc
    refine ⟨st, ?_, by simp [idRange], fun id _ _ => rfl, ?_, ?_⟩
    · simp [copyTreeChildren, childIdPairs, btValues, idRange]
    · simpa [seedPairs] using hp
    · simp only [List.map_nil, idRange]
      exact List.Forall₂.nil
  | cons kc rest ih =>
    intro st p pn stack newStack N0 hex hwf hasc hp hplt hN0 hpN0 hids hacc
    obtain ⟨hexc, hexrest⟩ := extractsToChildren_cons st kc rest hex
    obtain ⟨⟨d, hmp, hdkey⟩, hwfc, hwfrest⟩ := treeWFChildren_cons kc rest hwf
    obtain ⟨childNode, hgc, hcrd, hcmp, hcfs, hcch, hexcc⟩ := extractsTo_root st kc.2 hexc
    have hkeys : List.map Prod.fst (childIdPairs (kc :: rest))
        = kc.1 :: List.map Prod.fst (childIdPairs rest) := by
      simp [childIdPairs]
    rw [hkeys] at hasc
    have hpne : p ≠ st.nextId := Nat.ne_of_lt hplt
    -- the single loop-body step
    have hstep : copyTreeChildren st p stack newStack (btValues (childIdPairs (kc :: rest)))
        = copyTreeChildren
            (insertChild (MountNode.clone_mnt st childNode.root_dentry childNode (some p)).1
              p d.key st.nextId)
            p (kc.2.id :: stack) (st.nextId :: newStack) (btValues (childIdPairs rest)) := by
      show copyTreeChildren st p stack newStack
          (kc.2.id :: btValues (childIdPairs rest)) = _
      have halloc : getNode (MountNode.clone_mnt st childNode.root_dentry childNode
            (some p)).1
            (MountNode.clone_mnt st childNode.root_dentry childNode (some p)).2
          = some { root_dentry := childNode.root_dentry
                   mountpoint_dentry := childNode.mountpoint_dentry
                   fs := childNode.fs
                   parent := some p
                   children := [] } := getNode_alloc_self ..
      rw [copyTreeChildren, hgc]
      simp only [halloc, hcmp, hmp]
      rfl
    -- names for the two intermediate heaps
    set st1 : State :=
      (MountNode.clone_mnt st childNode.root_dentry childNode (some p)).1 with hst1
    set st2 : State := insertChild st1 p d.key st.nextId with hst2
    have hnext1 : st1.nextId = st.nextId + 1 := alloc_nextId ..
    have hnext2 : st2.nextId = st.nextId + 1 := by
      rw [hst2, insertChild_nextId, hnext1]
    have hg1p : getNode st1 p = some pn := by
      rw [hst1, getNode_clone_ne _ _ _ _ _ hpne, hp]
    have haccKc : ∀ x ∈ pn.children, x.1 < kc.1 := fun x hx =>
      hacc x hx kc (List.mem_cons_self _ _)
    have hg2p : getNode st2 p
        = some { pn with children := pn.children ++ [(kc.1, st.nextId)] } := by
      rw [hst2, insertChild_get_self st1 p d.key st.nextId pn hg1p, hdkey,
        btInsert_append _ _ _ haccKc]
    have hg2newC : getNode st2 st.nextId
        = some { root_dentry := childNode.root_dentry
                 mountpoint_dentry := childNode.mountpoint_dentry
                 fs := childNode.fs
                 parent := some p
                 children := [] } := by
      rw [hst2, insertChild_getNode_ne _ _ _ _ _ (Ne.symm hpne), hst1]
      exact getNode_alloc_self ..
    have hfr2 : ∀ id, id ≠ p → id ≠ st.nextId → getNode st2 id = getNode st id := by
      intro id h1 h2
      rw [hst2, insertChild_getNode_ne _ _ _ _ _ h1, hst1, getNode_clone_ne _ _ _ _ _ h2]
    -- re-establish the invariant for the remaining children
    have hexrest2 : extractsToChildren st2 rest = true := by
      refine extractsToChildren_frame rest st st2 ?_ hexrest
      intro i hi
      have hilt : i < N0 := hids i (by
        show i ∈ postorder kc.2 ++ postorderChildren rest
        exact List.mem_append_right _ hi)
      exact hfr2 i (by omega) (by omega)
    have hacc2 : ∀ x ∈ pn.children ++ [(kc.1, st.nextId)], ∀ kc' ∈ rest,
        x.1 < kc'.1 := by
      intro x hx kc' hkc'
      rcases List.mem_append.mp hx with hx | hx
      · exact hacc x hx kc' (List.mem_cons_of_mem _ hkc')
      · have hxeq : x = (kc.1, st.nextId) := by simpa using hx
        subst hxeq
        have : kc'.1 ∈ List.map Prod.fst (childIdPairs rest) := by
          rw [childIdPairs_keys]
          exact List.mem_map_of_mem _ hkc'
        exact strictAsc_head _ _ hasc _ this
    have hids2 : ∀ i ∈ postorderChildren rest, i < N0 := by
      intro i hi
      refine hids i ?_
      show i ∈ postorder kc.2 ++ postorderChildren rest
      exact List.mem_append_right _ hi
    obtain ⟨st', heq', hnext', hfr', hp', hseeds'⟩ :=
      ih st2 p { pn with children := pn.children ++ [(kc.1, st.nextId)] }
        (kc.2.id :: stack) (st.nextId :: newStack) N0
        hexrest2 hwfrest (strictAsc_tail _ _ hasc) hg2p (by omega)
        (by omega) hpN0 hids2 hacc2
    rw [hnext2] at heq' hnext' hfr' hp' hseeds'
    refine ⟨st', ?_, ?_, ?_, ?_, ?_⟩
    · rw [hstep, heq']
      simp [List.reverse_cons, List.append_assoc, idRange]
    · simp only [List.length_cons]
      omega
    · intro id hne hlt
      rw [hfr' id hne (by omega), hfr2 id hne (by omega)]
    · rw [hp']
      show _ = some { pn with
        children := pn.children ++ ((kc.1, st.nextId) :: seedPairs rest (st.nextId + 1)) }
      simp [seedPairs, List.append_assoc]
    · show List.Forall₂ (SeedAt st') (kc.2 :: List.map Prod.snd rest)
        (st.nextId :: idRange (st.nextId + 1) rest.length)
      refine List.Forall₂.cons ?_ hseeds'
      refine ⟨childNode.root_dentry, some p, ?_⟩
      rw [hfr' st.nextId (Ne.symm hpne) (by omega), hg2newC, hcmp, hcfs]

theorem extractsToChildren_mem (st : State) (cs : List (Nat × MTree))
    (h : extractsToChildren st cs = true) :
    ∀ kc ∈ cs, extractsTo st kc.2 = true := by
  induction cs with
  | nil => intro kc hkc; simp at hkc
  | cons kc0 rest ih =>
    intro kc hkc
    obtain ⟨h1, h2⟩ := extractsToChildren_cons st kc0 rest h
    rcases List.mem_cons.mp hkc with hkc | hkc
    · exact hkc ▸ h1
    · exact ih h2 kc hkc

theorem treeWFChildren_mem (cs : List (Nat × MTree))
    (h : treeWFChildren cs = true) : ∀ kc ∈ cs, treeWF kc.2 = true := by
  induction cs with
  | nil => intro kc hkc; simp at hkc
  | cons kc0 rest ih =>
    intro kc hkc
    obtain ⟨_, h2, h3⟩ := treeWFChildren_cons kc0 rest h
    rcases List.mem_cons.mp hkc with hkc | hkc
    · exact hkc ▸ h2
    · exact ih h3 kc hkc

theorem postorder_mem_child (cs : List (Nat × MTree)) (kc : Nat × MTree)
    (hkc : kc ∈ cs) (i : Nat) (hi : i ∈ postorder kc.2) :
    i ∈ postorderChildren cs := by
  induction cs with
  | nil => simp at hkc
  | cons kc0 rest ih =>
    show i ∈ postorder kc0.2 ++ postorderChildren rest
    rcases List.mem_cons.mp hkc with hkc' | hkc'
    · exact List.mem_append_left _ (hkc' ▸ hi)
    · exact List.mem_append_right _ (ih hkc')

theorem mem_idRange : ∀ (n s i : Nat), i ∈ idRange s n → s ≤ i ∧ i < s + n := by
  intro n
  induction n with
  | zero => intro s i hi; simp [idRange] at hi
  | succ n ih =>
    intro s i hi
    simp only [idRange] at hi
    rcases List.mem_cons.mp hi with hi | hi
    · omega
    · have := ih (s + 1) i hi
      omega

theorem idRange_nodup : ∀ (n s : Nat), (idRange s n).Nodup := by
  intro n
  induction n with
  | zero => intro s; simp [idRange]
  | succ n ih =>
    intro s
    simp only [idRange, List.nodup_cons]
    refine ⟨fun h => ?_, ih (s + 1)⟩
    have := mem_idRange n (s + 1) s h
    omega

theorem idRange_length : ∀ (n s : Nat), (idRange s n).length = n := by
  intro n
  induction n with
  | zero => intro s; rfl
  | succ n ih => intro s; simp [idRange, ih]

theorem sizeSum_append (l1 l2 : List MTree) :
    sizeSum (l1 ++ l2) = sizeSum l1 + sizeSum l2 := by
  induction l1 with
  | nil => simp [sizeSum]
  | cons t rest ih => simp [sizeSum, ih]; omega

theorem sizeSum_reverse (l : List MTree) : sizeSum l.reverse = sizeSum l := by
  induction l with
  | nil => rfl
  | cons t rest ih =>
    simp [List.reverse_cons, sizeSum_append, sizeSum, ih]
    omega

theorem sizeSum_map_snd (cs : List (Nat × MTree)) :
    sizeSum (List.map Prod.snd cs) = sizeChildren cs := by
  induction cs with
  | nil => rfl
  | cons kc rest ih => simp [sizeSum, sizeChildren, ih]

theorem forall₂_append_split {R : α → β → Prop} : ∀ (l1 : List α) (l1' : List β)
    (l2 : List α) (l2' : List β), l1.length = l1'.length →
    List.Forall₂ R (l1 ++ l2) (l1' ++ l2') →
    List.Forall₂ R l1 l1' ∧ List.Forall₂ R l2 l2' := by
  intro l1
  induction l1 with
  | nil =>
    intro l1' l2 l2' hlen h
    cases l1' with
    | nil => exact ⟨List.Forall₂.nil, h⟩
    | cons b bs => simp at hlen
  | cons a as ih =>
    intro l1' l2 l2' hlen h
    cases l1' with
    | nil => simp at hlen
    | cons b bs =>
      simp only [List.cons_append] at h
      cases h with
      | cons hH hT =>
        have := ih bs l2 l2' (by simpa using hlen) hT
        exact ⟨List.Forall₂.cons hH this.1, this.2⟩

theorem forall₂_imp_mem {R S : α → β → Prop} : ∀ (l1 : List α) (l2 : List β),
    List.Forall₂ R l1 l2 →
    (∀ a b, a ∈ l1 → b ∈ l2 → R a b → S a b) →
    List.Forall₂ S l1 l2 := by
  intro l1
  induction l1 with
  | nil =>
    intro l2 h _
    cases h
    exact List.Forall₂.nil
  | cons a as ih =>
    intro l2 h himp
    cases h with
    | cons hH hT =>
      refine List.Forall₂.cons
        (himp _ _ (List.mem_cons_self _ _) (List.mem_cons_self _ _) hH) ?_
      exact ih _ hT (fun x y hx hy => himp x y (List.mem_cons_of_mem _ hx)
        (List.mem_cons_of_mem _ hy))

/-- Choose concrete clone subtrees for a finished children row: given that
each child of `cs` has a finished clone rooted at the corresponding fresh id,
there is a children list for the clone parent with the same keys, extracted
in the final heap, with skeleton equal to the originals' and all ids in the
clone region. -/
theorem assemble_clone_children : ∀ (cs : List (Nat × MTree)) (n : Nat)
    (st' : State) (N0 : Nat),
    List.Forall₂ (DoneAt st' N0) (List.map Prod.snd cs) (idRange n cs.length) →
    ∃ cs'' : List (Nat × MTree),
      extractsToChildren st' cs'' = true ∧
      childIdPairs cs'' = seedPairs cs n ∧
      stripChildren cs'' = stripChildren cs ∧
      (∀ i ∈ postorderChildren cs'', N0 ≤ i) := by
  intro cs
  induction cs with
  | nil =>
    intro n st' N0 _
    refine ⟨[], rfl, rfl, rfl, ?_⟩
    intro i hi
    simp [postorderChildren] at hi
  | cons kc rest ih =>
    intro n st' N0 h
    simp only [List.map_cons, List.length_cons, idRange] at h
    cases h with
    | cons hH hT =>
      obtain ⟨t'', hext, hid, hstrip, hlo⟩ := hH
      obtain ⟨rest'', h1, h2, h3, h4⟩ := ih (n + 1) st' N0 hT
      refine ⟨(kc.1, t'') :: rest'', ?_, ?_, ?_, ?_⟩
      · simp only [extractsToChildren, Bool.and_eq_true]
        exact ⟨hext, h1⟩
      · simp [childIdPairs, seedPairs, hid, h2]
      · simp [stripChildren, hstrip, h3]
      · intro i hi
        rcases List.mem_append.mp hi with hi | hi
        · exact hlo i hi
        · exact h4 i hi

theorem postorder_eq (t : MTree) :
    postorder t = postorderChildren t.children ++ [t.id] := by
  obtain ⟨i, rd, mp, f0, cs⟩ := t
  rfl

theorem strip_eq (t : MTree) :
    MTree.strip t = STree.node t.fs (stripChildren t.children) := by
  obtain ⟨i, rd, mp, f0, cs⟩ := t
  rfl

theorem size_eq (t : MTree) : MTree.size t = 1 + sizeChildren t.children := by
  obtain ⟨i, rd, mp, f0, cs⟩ := t
  rfl

/-- Correctness of the explicit-stack loop of `copy_tree`: every pending pair
of (original subtree, freshly seeded clone id) is completed — the clone id
ends up rooting a finished clone with the same skeleton, all its node ids in
the clone region — and heap entries outside the pending clone ids are
untouched. -/
theorem copyTreeLoop_spec : ∀ (fuel : Nat) (st : State) (ts : List MTree)
    (cloneIds : List Nat) (N0 : Nat),
    (∀ t ∈ ts, extractsTo st t = true) →
    (∀ t ∈ ts, treeWF t = true) →
    (∀ t ∈ ts, ∀ i ∈ postorder t, i < N0) →
    N0 ≤ st.nextId →
    List.Forall₂ (SeedAt st) ts cloneIds →
    (∀ c ∈ cloneIds, N0 ≤ c ∧ c < st.nextId) →
    cloneIds.Nodup →
    sizeSum ts < fuel →
    ∃ st',
      copyTreeLoop fuel st (List.map MTree.id ts) cloneIds = some st' ∧
      st.nextId ≤ st'.nextId ∧
      (∀ id, id < st.nextId → id ∉ cloneIds → getNode st' id = getNode st id) ∧
      List.Forall₂ (DoneAt st' N0) ts cloneIds := by
  intro fuel
  induction fuel with
  | zero =>
    intro st ts cloneIds N0 _ _ _ _ _ _ _ hfuel
    omega
  | succ f ihf =>
    intro st ts cloneIds N0 hex hwf hids hN0 hseeds hcrange hnodup hfuel
    cases ts with
    | nil =>
      cases hseeds
      refine ⟨st, ?_, le_rfl, fun id _ _ => rfl, List.Forall₂.nil⟩
      simp [copyTreeLoop]
    | cons t ts' =>
      cases cloneIds with
      | nil => cases hseeds
      | cons c cs' =>
        have hseedH : SeedAt st t c := by
          cases hseeds with | cons h1 h2 => exact h1
        have hseedT : List.Forall₂ (SeedAt st) ts' cs' := by
          cases hseeds with | cons h1 h2 => exact h2
        obtain ⟨hcN0, hclt⟩ := hcrange c (List.mem_cons_self _ _)
        have hct : ∀ c' ∈ cs', N0 ≤ c' ∧ c' < st.nextId := fun c' h =>
          hcrange c' (List.mem_cons_of_mem _ h)
        have hcnotin : c ∉ cs' := (List.nodup_cons.mp hnodup).1
        have hnodup' : cs'.Nodup := (List.nodup_cons.mp hnodup).2
        have hexT := hex t (List.mem_cons_self _ _)
        obtain ⟨n, hgn, hnrd, hnmp, hnfs, hnch, hexch⟩ := extractsTo_root st t hexT
        obtain ⟨hasc, hwfch⟩ := treeWF_root t (hwf t (List.mem_cons_self _ _))
        obtain ⟨rdC, prC, hgc⟩ := hseedH
        have hidsT := hids t (List.mem_cons_self _ _)
        have hidsCh : ∀ i ∈ postorderChildren t.children, i < N0 := by
          intro i hi
          refine hidsT i ?_
          rw [postorder_eq]
          exact List.mem_append_left _ hi
        obtain ⟨st2, hcceq, hccnext, hccfr, hccp, hccseeds⟩ :=
          copyTreeChildren_spec t.children st c
            { root_dentry := rdC
              mountpoint_dentry := t.mp
              fs := t.fs
              parent := prC
              children := [] }
            (List.map MTree.id ts') cs' N0
            hexch hwfch hasc hgc hclt hN0 hcN0 hidsCh
            (by intro x hx; simp at hx)
        -- low-id heap entries are untouched by the children pass
        have hfrlow : ∀ i, i < N0 → getNode st2 i = getNode st i := by
          intro i hi
          exact hccfr i (by omega) (by omega)
        have hts2ex : ∀ t'' ∈ (List.map Prod.snd t.children).reverse ++ ts',
            extractsTo st2 t'' = true := by
          intro t'' ht''
          have hlow : (∀ i ∈ postorder t'', i < N0) ∧ extractsTo st t'' = true := by
            rcases List.mem_append.mp ht'' with h | h
            · rw [List.mem_reverse] at h
              obtain ⟨kc, hkc, rfl⟩ := List.mem_map.mp h
              refine ⟨?_, extractsToChildren_mem st t.children hexch kc hkc⟩
              intro i hi
              exact hidsCh i (postorder_mem_child t.children kc hkc i hi)
            · exact ⟨hids t'' (List.mem_cons_of_mem _ h),
                hex t'' (List.mem_cons_of_mem _ h)⟩
          exact extractsTo_frame t'' st st2
            (fun i hi => hfrlow i (hlow.1 i hi)) hlow.2
        have hts2wf : ∀ t'' ∈ (List.map Prod.snd t.children).reverse ++ ts',
            treeWF t'' = true := by
          intro t'' ht''
          rcases List.mem_append.mp ht'' with h | h
          · rw [List.mem_reverse] at h
            obtain ⟨kc, hkc, rfl⟩ := List.mem_map.mp h
            exact treeWFChildren_mem t.children hwfch kc hkc
          · exact hwf t'' (List.mem_cons_of_mem _ h)
        have hts2ids : ∀ t'' ∈ (List.map Prod.snd t.children).reverse ++ ts',
            ∀ i ∈ postorder t'', i < N0 := by
          intro t'' ht'' i hi
          rcases List.mem_append.mp ht'' with h | h
          · rw [List.mem_reverse] at h
            obtain ⟨kc, hkc, rfl⟩ := List.mem_map.mp h
            exact hidsCh i (postorder_mem_child t.children kc hkc i hi)
          · exact hids t'' (List.mem_cons_of_mem _ h) i hi
        have hseeds2 : List.Forall₂ (SeedAt st2)
            ((List.map Prod.snd t.children).reverse ++ ts')
            ((idRange st.nextId t.children.length).reverse ++ cs') := by
          refine List.rel_append (List.rel_reverse hccseeds) ?_
          refine forall₂_imp_mem ts' cs' hseedT ?_
          intro t'' c'' _ hc'' hseed
          obtain ⟨rd'', pr'', hg''⟩ := hseed
          obtain ⟨hcN0'', hclt''⟩ := hct c'' hc''
          refine ⟨rd'', pr'', ?_⟩
          rw [hccfr c'' (fun hcc => hcnotin (hcc ▸ hc'')) hclt'', hg'']
        have hcrange2 : ∀ c'' ∈ (idRange st.nextId t.children.length).reverse ++ cs',
            N0 ≤ c'' ∧ c'' < st2.nextId := by
          intro c'' hc''
          rcases List.mem_append.mp hc'' with h | h
          · have := mem_idRange _ _ _ (List.mem_reverse.mp h)
            omega
          · have := hct c'' h
            omega
        have hnodup2 : ((idRange st.nextId t.children.length).reverse ++ cs').Nodup := by
          rw [List.nodup_append]
          refine ⟨List.nodup_reverse.mpr (idRange_nodup _ _), hnodup', ?_⟩
          intro a ha ha'
          have h1 := mem_idRange _ _ _ (List.mem_reverse.mp ha)
          have h2 := hct a ha'
          omega
        have hfuel2 : sizeSum ((List.map Prod.snd t.children).reverse ++ ts') < f := by
          rw [sizeSum_append, sizeSum_reverse, sizeSum_map_snd]
          have h1 : sizeSum (t :: ts') = MTree.size t + sizeSum ts' := rfl
          have h2 := size_eq t
          omega
        obtain ⟨st', hloop', hnext', hfr', hdone'⟩ :=
          ihf st2 ((List.map Prod.snd t.children).reverse ++ ts')
            ((idRange st.nextId t.children.length).reverse ++ cs') N0
            hts2ex hts2wf hts2ids (by omega) hseeds2 hcrange2 hnodup2 hfuel2
        have hstacks : List.map MTree.id ((List.map Prod.snd t.children).reverse ++ ts')
            = (List.map (fun kc => MTree.id kc.2) t.children).reverse
                ++ List.map MTree.id ts' := by
          simp [List.map_append, List.map_reverse, List.map_map, Function.comp]
        rw [hstacks] at hloop'
        -- one unfolding of the loop
        have hstep : copyTreeLoop (f + 1) st (MTree.id t :: List.map MTree.id ts')
            (c :: cs') = some st' := by
          rw [copyTreeLoop, hgn]
          simp only [hnch, hcceq]
          exact hloop'
        refine ⟨st', hstep, by omega, ?_, ?_⟩
        · intro id hlt hnotin
          have h1 : id ∉ (idRange st.nextId t.children.length).reverse ++ cs' := by
            intro hmem
            rcases List.mem_append.mp hmem with h | h
            · have := mem_idRange _ _ _ (List.mem_reverse.mp h)
              omega
            · exact hnotin (List.mem_cons_of_mem _ h)
          rw [hfr' id (by omega) h1,
            hccfr id (fun hceq => hnotin (hceq ▸ List.mem_cons_self _ _)) hlt]
        · -- split the finished pendings back into children and tail
          obtain ⟨hdoneCh, hdoneTs⟩ := forall₂_append_split _ _ _ _
            (by simp [idRange_length]) hdone'
          have hdoneCh' : List.Forall₂ (DoneAt st' N0) (List.map Prod.snd t.children)
              (idRange st.nextId t.children.length) := by
            have := List.forall₂_reverse_iff.mp hdoneCh
            simpa [idRange_length] using this
          obtain ⟨cs'', hcs1, hcs2, hcs3, hcs4⟩ :=
            assemble_clone_children t.children st.nextId st' N0 (by
              simpa [List.length_map] using hdoneCh')
          have hgc' : getNode st' c
              = some { root_dentry := rdC
                       mountpoint_dentry := t.mp
                       fs := t.fs
                       parent := prC
                       children := seedPairs t.children st.nextId } := by
            have h1 : c ∉ (idRange st.nextId t.children.length).reverse ++ cs' := by
              intro hmem
              rcases List.mem_append.mp hmem with h | h
              · have := mem_idRange _ _ _ (List.mem_reverse.mp h)
                omega
              · exact hcnotin h
            rw [hfr' c (by omega) h1]
            simpa using hccp
          refine List.Forall₂.cons ?_ hdoneTs
          refine ⟨MTree.node c rdC t.mp t.fs cs'', ?_, rfl, ?_, ?_⟩
          · simp only [extractsTo, hgc']
            simp [hcs1, hcs2]
          · rw [strip_eq t]
            show STree.node t.fs (stripChildren cs'') = _
            rw [hcs3]
          · intro i hi
            rw [postorder_eq] at hi
            rcases List.mem_append.mp hi with h | h
            · exact hcs4 i h
            · have : i = c := by simpa using h
              omega

/-- C4: on every extracted finite mount subtree, `copy_tree` succeeds and
produces a clone isomorphic to the original: a clone tree with the same
skeleton (`strip` equality — the same children-map key set at every level and
the same filesystem handle at every pair of corresponding nodes) and the same
node count, whose node identities all lie in the fresh region (disjoint from
every original id), while every original heap entry is untouched; hence
inserting into or removing from any clone node's children map leaves every
original node's children map unchanged. -/
theorem C4_copy_tree_isomorphism (st : State) (t : MTree) (rootD : Dentry)
    (fuel : Nat)
    (hex : extractsTo st t = true)
    (hwf : treeWF t = true)
    (hids : ∀ i ∈ postorder t, i < st.nextId)
    (hfuel : MTree.size t < fuel) :
    ∃ st' t',
      MountNode.copy_tree st t.id rootD fuel = some (st', st.nextId) ∧
      extractsTo st' t' = true ∧
      t'.id = st.nextId ∧
      MTree.strip t' = MTree.strip t ∧
      MTree.size t' = MTree.size t ∧
      (∀ i ∈ postorder t', st.nextId ≤ i) ∧
      (∀ id, id < st.nextId → getNode st' id = getNode st id) ∧
      (∀ c ∈ postorder t', ∀ o ∈ postorder t, ∀ k v,
        getNode (insertChild st' c k v) o = getNode st' o ∧
        getNode (removeChild st' c k) o = getNode st' o) := by
  obtain ⟨n, hgn, hnrd, hnmp, hnfs, hnch, hexch⟩ := extractsTo_root st t hex
  have hct : MountNode.copy_tree st t.id rootD fuel
      = match copyTreeLoop fuel (MountNode.clone_mnt st rootD n none).1
          [t.id] [st.nextId] with
        | none => none
        | some st2 => some (st2, st.nextId) := by
    rw [MountNode.copy_tree, hgn]
    rfl
  have hex1 : extractsTo (MountNode.clone_mnt st rootD n none).1 t = true := by
    refine extractsTo_frame t st _ ?_ hex
    intro i hi
    exact getNode_clone_ne _ _ _ _ _ (by have := hids i hi; omega)
  have hseed : SeedAt (MountNode.clone_mnt st rootD n none).1 t st.nextId := by
    refine ⟨rootD, none, ?_⟩
    have h1 : getNode (MountNode.clone_mnt st rootD n none).1
        (MountNode.clone_mnt st rootD n none).2
        = some { root_dentry := rootD
                 mountpoint_dentry := n.mountpoint_dentry
                 fs := n.fs
                 parent := none
                 children := [] } := getNode_alloc_self ..
    rw [show (MountNode.clone_mnt st rootD n none).2 = st.nextId from rfl] at h1
    rw [h1, hnmp, hnfs]
  obtain ⟨st', hloop, hnext, hfr, hdone⟩ :=
    copyTreeLoop_spec fuel (MountNode.clone_mnt st rootD n none).1 [t]
      [st.nextId] st.nextId
      (by intro t'' ht''; rw [List.mem_singleton.mp ht'']; exact hex1)
      (by intro t'' ht''; rw [List.mem_singleton.mp ht'']; exact hwf)
      (by intro t'' ht''; rw [List.mem_singleton.mp ht'']; exact hids)
      (by rw [clone_nextId]; omega)
      (List.Forall₂.cons hseed List.Forall₂.nil)
      (by
        intro c hc
        rw [List.mem_singleton.mp hc, clone_nextId]
        omega)
      (List.nodup_singleton _)
      (by show MTree.size t + sizeSum [] < fuel; simp [sizeSum]; omega)
  have hdoneH : DoneAt st' st.nextId t st.nextId := by
    cases hdone with | cons h1 h2 => exact h1
  obtain ⟨t', hext', hid', hstrip', hlo'⟩ := hdoneH
  refine ⟨st', t', ?_, hext', hid', hstrip', ?_, hlo', ?_, ?_⟩
  · rw [hct]
    have : List.map MTree.id [t] = [t.id] := rfl
    rw [this] at hloop
    rw [hloop]
  · have h1 := (size_strip_both (MTree.size t')).1 t' le_rfl
    have h2 := (size_strip_both (MTree.size t)).1 t le_rfl
    rw [← h1, ← h2, hstrip']
  · intro id hlt
    rw [hfr id (by rw [clone_nextId]; omega) (by
      intro hmem
      have := List.mem_singleton.mp hmem
      omega),
      getNode_clone_ne _ _ _ _ _ (by omega)]
  · intro c hc o ho k v
    have hco : o ≠ c := by
      have h1 := hlo' c hc
      have h2 := hids o ho
      omega
    exact ⟨insertChild_getNode_ne _ _ _ _ _ hco, removeChild_getNode_ne _ _ _ _ hco⟩

/-- C4 witness: the theorem applied to the fixture tree view `tA` (root 0
with fs 1 and one child, node 1, mounted at key 5 with fs 2) with fuel 3. -/
theorem C4_copy_tree_isomorphism_witness :
    extractsTo stA tA = true ∧ treeWF tA = true ∧
    (∀ i ∈ postorder tA, i < stA.nextId) ∧ MTree.size tA < 3 ∧
    ∃ st' t',
      MountNode.copy_tree stA tA.id nA0.root_dentry 3 = some (st', stA.nextId) ∧
      extractsTo st' t' = true ∧
      t'.id = stA.nextId ∧
      MTree.strip t' = MTree.strip tA ∧
      MTree.size t' = MTree.size tA ∧
      (∀ i ∈ postorder t', stA.nextId ≤ i) ∧
      (∀ id, id < stA.nextId → getNode st' id = getNode stA id) ∧
      (∀ c ∈ postorder t', ∀ o ∈ postorder tA, ∀ k v,
        getNode (insertChild st' c k v) o = getNode st' o ∧
        getNode (removeChild st' c k) o = getNode st' o) :=
  ⟨by decide, by decide, by decide, by decide,
    C4_copy_tree_isomorphism stA tA nA0.root_dentry 3 (by decide) (by decide)
      (by decide) (by decide)⟩

end Asterinas
